import Mathlib

/-!
Package `gstop` (`stopper.go`): a one-shot stop signal with deferred cleanup.

A shallow embedding of the Go package `gstop` and proofs about it.

* A `Stopper` is the Go struct: the channel `C` (only ever closed, never sent
  on, so its state is one bit), the `sync.Once` guard and the slice `tasks`.
* A `Task` (`func()` in Go) is embedded as the finite sequence of operations the
  closure performs on the stopper it captured and on the outside world.
* `sync.Once` is the Go standard library type; `onceDo` follows
  `Once.Do`/`Once.doSlow`: the fast path reads `done`, the slow path takes the
  (non-reentrant) mutex `m`, re-reads `done`, runs `f`, and stores `done = 1`
  and unlocks in deferred calls, i.e. only after `f` has returned or panicked.
* Every observable action is appended to a ghost `trace`.
-/

namespace gstop

/-! ## Data model -/

/-- Go closure of type `Task` (`func()`), as the operations it performs in order. -/
inductive Task where
  /-- the closure returns -/
  | ret : Task
  /-- an effect on the outside world, identified by a tag, then continue -/
  | emit : String → Task → Task
  /-- non-blocking receive `select { case <-s.C: a; default: b }` -/
  | ifClosed : Task → Task → Task
  /-- the call `s.Defer(t)`, then continue -/
  | callDefer : Task → Task → Task
  /-- the call `s.Stop()`, then continue -/
  | callStop : Task → Task
  deriving DecidableEq, Repr

/-- Observable actions, in the order they happen. -/
inductive Event where
  /-- the statement `close(s.C)` was executed -/
  | closed : Event
  /-- the cleanup loop of `Stop` called `s.tasks[i]()`; `fired` is the state of
  `s.C` at the moment of the call -/
  | invoke (i : Nat) (t : Task) (fired : Bool) : Event
  /-- a task performed the outside effect with this tag -/
  | emit (tag : String) : Event
  /-- a task did a non-blocking receive on `s.C` and saw this state -/
  | probe (fired : Bool) : Event
  /-- the `Loop` worker took the `default` branch and called `task()` -/
  | loopCall : Event
  /-- the call `task()` made by the `Loop` worker returned -/
  | loopReturn : Event
  deriving DecidableEq, Repr

/-- The Go type `sync.Once`: the flag `done` and whether the mutex `m` is held. -/
structure Once where
  done : Bool
  locked : Bool
  deriving DecidableEq, Repr

/-- The Go struct `Stopper`. `C = true` means the channel has been closed. -/
structure Stopper where
  C : Bool
  once : Once
  tasks : List Task
  deriving DecidableEq, Repr

/-- A stopper together with the ghost trace of what has happened so far. -/
structure Config where
  s : Stopper
  trace : List Event
  deriving DecidableEq, Repr

/-- How a call ends, over a state of type `σ`. -/
inductive Outcome (σ : Type) where
  /-- the call returned, leaving this state -/
  | returned (c : σ) : Outcome σ
  /-- the calling goroutine is blocked forever, in this state -/
  | deadlock (c : σ) : Outcome σ
  /-- the call panicked, leaving this state -/
  | panicked (c : σ) : Outcome σ
  /-- the model ran out of call-depth fuel -/
  | outOfFuel : Outcome σ
  deriving DecidableEq, Repr

/-- Sequencing of calls: continue only if the first call returned. -/
def Outcome.andThen {σ : Type} : Outcome σ → (σ → Outcome σ) → Outcome σ
  | .returned c, f => f c
  | .deadlock c, _ => .deadlock c
  | .panicked c, _ => .panicked c
  | .outOfFuel, _ => .outOfFuel

/-- The state an outcome leaves behind, if any. -/
def Outcome.config? {σ : Type} : Outcome σ → Option σ
  | .returned c => some c
  | .deadlock c => some c
  | .panicked c => some c
  | .outOfFuel => none

/-- Carry an outcome on a part of the state over to the whole state. -/
def Outcome.map {σ τ : Type} (f : σ → τ) : Outcome σ → Outcome τ
  | .returned c => .returned (f c)
  | .deadlock c => .deadlock (f c)
  | .panicked c => .panicked (f c)
  | .outOfFuel => .outOfFuel

/-- Append an event to the ghost trace. -/
def Config.record (c : Config) (e : Event) : Config :=
  { c with trace := c.trace ++ [e] }

/-! ## Operations of `stopper.go` -/

/-- `New`: a fresh stopper: `once: sync.Once{}`, `C: make(chan struct{})`, no tasks. -/
def New : Config :=
  { s := { C := false, once := { done := false, locked := false }, tasks := [] }
    trace := [] }

/-- `Defer`: `s.tasks = append(s.tasks, task)`. -/
def Config.Defer (c : Config) (task : Task) : Config :=
  { c with s := { c.s with tasks := c.s.tasks ++ [task] } }

/-- Run a task closure; `stop` is what the call `s.Stop()` does. -/
def runTask (stop : Config → Outcome Config) : Task → Config → Outcome Config
  | .ret, c => .returned c
  | .emit tag k, c => runTask stop k (c.record (.emit tag))
  | .ifClosed a b, c =>
      if c.s.C then runTask stop a (c.record (.probe true))
      else runTask stop b (c.record (.probe false))
  | .callDefer t k, c => runTask stop k (c.Defer t)
  | .callStop k, c => (stop c).andThen (runTask stop k)

/-- The statement `close(s.C)`; closing a closed channel panics in Go. -/
def closeChan (c : Config) : Outcome Config :=
  if c.s.C then .panicked c
  else .returned ({ c with s := { c.s with C := true } }.record .closed)

/-- The loop `for i := len(s.tasks) - 1; i >= 0; i-- { s.tasks[i]() }`.
The first argument is `i + 1`; each iteration re-reads `s.tasks` and indexes it
(an index out of range panics). -/
def cleanupLoop (stop : Config → Outcome Config) : Nat → Config → Outcome Config
  | 0, c => .returned c
  | i + 1, c =>
      match c.s.tasks[i]? with
      | none => .panicked c
      | some t =>
          (runTask stop t (c.record (.invoke i t c.s.C))).andThen (cleanupLoop stop i)

/-- The function literal passed to `s.once.Do` in `Stop`:
`close(s.C)`, the cleanup loop, `s.tasks = nil`. -/
def closeBody (stop : Config → Outcome Config) (c : Config) : Outcome Config :=
  (closeChan c).andThen fun c1 =>
    (cleanupLoop stop c1.s.tasks.length c1).andThen fun c2 =>
      .returned { c2 with s := { c2.s with tasks := [] } }

/-- Set the fields of `s.once`. -/
def Config.setOnce (c : Config) (o : Once) : Config :=
  { c with s := { c.s with once := o } }

/-- `sync.Once.Do(f)` called by a goroutine while no other goroutine is running:
fast path `if o.done == 0`, then `doSlow`: `o.m.Lock()` (the mutex is not
reentrant: if it is held, its holder is the caller itself or a goroutine that is
itself blocked, so the call blocks forever), `defer o.m.Unlock()`,
`if o.done == 0 { defer o.done.Store(1); f() }`. The deferred calls run when `f`
returns or panics, not when it blocks. -/
def onceDo (f : Config → Outcome Config) (c : Config) : Outcome Config :=
  if c.s.once.done then .returned c
  else if c.s.once.locked then .deadlock c
  else
    let c1 := c.setOnce { c.s.once with locked := true }
    if c1.s.once.done then .returned (c1.setOnce { c1.s.once with locked := false })
    else
      match f c1 with
      | .returned c2 => .returned (c2.setOnce { done := true, locked := false })
      | .panicked c2 => .panicked (c2.setOnce { done := true, locked := false })
      | .deadlock c2 => .deadlock c2
      | .outOfFuel => .outOfFuel

/-- `Stop`: `s.once.Do(func() { close(s.C); ...; s.tasks = nil })`.
The fuel bounds the nesting depth of `Stop` calls made from inside tasks. -/
def Stop : Nat → Config → Outcome Config
  | 0, _ => .outOfFuel
  | n + 1, c => onceDo (closeBody (Stop n)) c

/-! ## Derived notions used in the statements -/

/-- Register the tasks in order with `Defer`. -/
def deferAll (ts : List Task) (c : Config) : Config :=
  ts.foldl Config.Defer c

/-- The calls `s.tasks[i]()` made by cleanup loops, as pairs `(i, task)`, in order. -/
def invocations : List Event → List (Nat × Task)
  | [] => []
  | .invoke i t _ :: es => (i, t) :: invocations es
  | _ :: es => invocations es

/-- The tags of the outside effects, in order. -/
def recorded : List Event → List String
  | [] => []
  | .emit tag :: es => tag :: recorded es
  | _ :: es => recorded es

/-- How many times `close(s.C)` was executed. -/
def closeCount (es : List Event) : Nat :=
  es.count .closed

/-- Does the closure reach a call of `s.Stop()` when `s.C` is in state `fired`?
(Only `Stop` changes `s.C`, so the state is constant up to that call.) -/
def Task.callsStop (fired : Bool) : Task → Bool
  | .ret => false
  | .emit _ k => k.callsStop fired
  | .ifClosed a b => if fired then a.callsStop fired else b.callsStop fired
  | .callDefer _ k => k.callsStop fired
  | .callStop _ => true

/-- The events a closure produces up to its return or its first call of `Stop`. -/
def Task.events (fired : Bool) : Task → List Event
  | .ret => []
  | .emit tag k => .emit tag :: k.events fired
  | .ifClosed a b => .probe fired :: (if fired then a.events fired else b.events fired)
  | .callDefer _ k => k.events fired
  | .callStop _ => []

/-- The tasks a closure registers with `Defer` up to its return or first call of `Stop`. -/
def Task.deferred (fired : Bool) : Task → List Task
  | .ret => []
  | .emit _ k => k.deferred fired
  | .ifClosed a b => if fired then a.deferred fired else b.deferred fired
  | .callDefer t k => t :: k.deferred fired
  | .callStop _ => []

/-- A stopper at rest: no close body is running, and the guard is spent exactly
when the channel is closed. -/
def Config.Quiescent (c : Config) : Prop :=
  c.s.once.locked = false ∧ c.s.once.done = c.s.C

instance (c : Config) : Decidable c.Quiescent := by
  unfold Config.Quiescent; infer_instance

/-- Add tasks at the end of the slice and events at the end of the trace. -/
def Config.extend (c : Config) (ts : List Task) (es : List Event) : Config :=
  { s := { c.s with tasks := c.s.tasks ++ ts }, trace := c.trace ++ es }

/-- The events of one pass of the cleanup loop over the given calls. -/
def loopEvents (fired : Bool) (calls : List (Nat × Task)) : List Event :=
  calls.flatMap fun p => .invoke p.1 p.2 fired :: p.2.events fired

/-- A stand-in for `s.Stop()` that blocks whenever the guard's mutex is held
and the guard is not spent. -/
def BlocksWhenLocked (stop : Config → Outcome Config) : Prop :=
  ∀ d : Config, d.s.once.locked = true → d.s.once.done = false → stop d = .deadlock d

/-- The configuration a first `Stop` leaves when every cleanup task returns. -/
def afterStop (c : Config) : Config :=
  { s := { C := true, once := { done := true, locked := false }, tasks := [] }
    trace := c.trace ++ .closed :: loopEvents true c.s.tasks.enum.reverse }

/-- Call `Stop` the given number of times in a row. -/
def StopTimes (fuel : Nat) : Nat → Config → Outcome Config
  | 0, c => .returned c
  | k + 1, c => (Stop fuel c).andThen (StopTimes fuel k)

/-- A call of the API made by the owner of the stopper. -/
inductive Call where
  | defer (t : Task) : Call
  | stop : Call
  deriving DecidableEq, Repr

/-- Make the calls one after the other. -/
def runCalls (fuel : Nat) : List Call → Config → Outcome Config
  | [], c => .returned c
  | .defer t :: cs, c => runCalls fuel cs (c.Defer t)
  | .stop :: cs, c => (Stop fuel c).andThen (runCalls fuel cs)

/-- The event was made by a cleanup call or a task while the channel was in
state `fired` (calls and probes carry the state they saw). -/
def Event.sees (fired : Bool) : Event → Prop
  | .invoke _ _ f => f = fired
  | .probe f => f = fired
  | .emit _ => True
  | .closed => False
  | .loopCall => False
  | .loopReturn => False

/-- Events made by the `Loop` worker itself. -/
def Event.byWorker : Event → Bool
  | .loopCall => true
  | .loopReturn => true
  | _ => false

/-- How many times the `Loop` worker called `task()`. -/
def loopCalls (es : List Event) : Nat :=
  es.count .loopCall

/-- How many calls `task()` made by the `Loop` worker have returned. -/
def loopReturns (es : List Event) : Nat :=
  es.count .loopReturn

/-- What a call may do to a stopper and its trace, seen from the `Loop` worker:
it never re-opens the channel and appends no worker event. -/
def Frame (c c' : Config) : Prop :=
  (c.s.C = true → c'.s.C = true) ∧
    ∃ es, c'.trace = c.trace ++ es ∧ ∀ e ∈ es, e.byWorker = false

/-- A call that always ends in some configuration, within the frame. -/
def Framed (f : Config → Outcome Config) : Prop :=
  ∀ c, ∃ c', (f c).config? = some c' ∧ Frame c c'

/-! ## Linked stoppers: `NewChild` and `NewParent` -/

/-- Two stoppers and the watcher goroutine linking them: the watcher waits on
`up.C` and on `down.C`; `watching` says it is still at its `select`. -/
structure Link where
  up : Config
  down : Config
  watching : Bool
  deriving DecidableEq, Repr

/-- `NewChild(stop)` where `stop` is the channel `p.C` (this is also the method
`p.NewChild()`, which is `NewChild(p.C)`): a fresh `child` with
`once: sync.Once{}`, `C: make(chan struct{})`, and the watcher goroutine. -/
def NewChild (p : Config) : Link :=
  { up := p
    down := { s := { C := false, once := { done := false, locked := false }, tasks := [] }
              trace := [] }
    watching := true }

/-- `s.NewParent()`: a fresh `parent` and the watcher goroutine. -/
def NewParent (s : Config) : Link :=
  { up := { s := { C := false, once := { done := false, locked := false }, tasks := [] }
            trace := [] }
    down := s
    watching := true }

/-- The watcher goroutine of `NewChild`, run from its `select` to its end:
`select { case <-stop: child.Stop(); case <-child.C: }`.
`none`: the `select` blocks (neither channel is closed) or the goroutine is gone.
When both channels are closed Go picks a case at random: `pick` says whether it
is the first one. -/
def Link.childWatcher (fuel : Nat) (pick : Bool) (l : Link) : Option (Outcome Link) :=
  if l.watching = false then none
  else
    match l.up.s.C, l.down.s.C with
    | false, false => none
    | true, false =>
        some ((Stop fuel l.down).map fun d => { l with down := d, watching := false })
    | false, true => some (.returned { l with watching := false })
    | true, true =>
        if pick then
          some ((Stop fuel l.down).map fun d => { l with down := d, watching := false })
        else some (.returned { l with watching := false })

/-- The watcher goroutine of `NewParent`, run from its `select` to its end:
`select { case <-parent.C: s.Stop(); case <-s.C: }`. -/
def Link.parentWatcher (fuel : Nat) (pick : Bool) (l : Link) : Option (Outcome Link) :=
  if l.watching = false then none
  else
    match l.up.s.C, l.down.s.C with
    | false, false => none
    | true, false =>
        some ((Stop fuel l.down).map fun d => { l with down := d, watching := false })
    | false, true => some (.returned { l with watching := false })
    | true, true =>
        if pick then
          some ((Stop fuel l.down).map fun d => { l with down := d, watching := false })
        else some (.returned { l with watching := false })

/-- The call `Stop()` on the upper stopper (the parent). -/
def Link.stopUp (fuel : Nat) (l : Link) : Outcome Link :=
  (Stop fuel l.up).map fun c => { l with up := c }

/-- The call `Stop()` on the lower stopper (the child, or the wrapped signal). -/
def Link.stopDown (fuel : Nat) (l : Link) : Outcome Link :=
  (Stop fuel l.down).map fun c => { l with down := c }

/-- Register tasks, in order, on the upper stopper. -/
def Link.deferUp (ts : List Task) (l : Link) : Link :=
  { l with up := deferAll ts l.up }

/-- Register tasks, in order, on the lower stopper. -/
def Link.deferDown (ts : List Task) (l : Link) : Link :=
  { l with down := deferAll ts l.down }

/-- A non-blocking receive `select { case <-s.C: true; default: false }`. -/
def Config.tryReceive (c : Config) : Bool :=
  c.s.C

/-! ## The `Loop` worker -/

/-- Where the worker goroutine of `Loop` is. -/
inductive Worker where
  /-- at the top of the `for`, about to execute the `select` -/
  | atSelect : Worker
  /-- the `default` branch was taken: the call `task()` is in flight -/
  | inCall : Worker
  /-- the branch `case <-s.C: return` was taken -/
  | exited : Worker
  /-- blocked forever inside `task()` -/
  | stuck : Worker
  /-- `task()` panicked -/
  | crashed : Worker
  deriving DecidableEq, Repr

/-- A stopper, the task given to `Loop`, and the worker goroutine. -/
structure LoopSys where
  cfg : Config
  task : Task
  worker : Worker
  deriving DecidableEq, Repr

/-- `Loop`: `go func() { for { select { case <-s.C: return; default: task() } } }()`. -/
def Loop (c : Config) (task : Task) : LoopSys :=
  { cfg := c, task := task, worker := .atSelect }

/-- One step of the worker: at the `select` it returns if `s.C` is closed and
otherwise starts the call `task()`; in a call, it runs the task to its end.
`none`: the model ran out of fuel. -/
def LoopSys.workerStep (fuel : Nat) (σ : LoopSys) : Option LoopSys :=
  match σ.worker with
  | .atSelect =>
      if σ.cfg.s.C then some { σ with worker := .exited }
      else some { σ with cfg := σ.cfg.record .loopCall, worker := .inCall }
  | .inCall =>
      match runTask (Stop fuel) σ.task σ.cfg with
      | .returned c => some { σ with cfg := c.record .loopReturn, worker := .atSelect }
      | .deadlock c => some { σ with cfg := c, worker := .stuck }
      | .panicked c => some { σ with cfg := c, worker := .crashed }
      | .outOfFuel => none
  | .exited => some σ
  | .stuck => some σ
  | .crashed => some σ

/-- What happens next: the worker moves, or another goroutine calls the API. -/
inductive LoopAct where
  | worker : LoopAct
  | stop : LoopAct
  | defer (t : Task) : LoopAct
  deriving DecidableEq, Repr

/-- One step of the system. A `Stop` made by another goroutine is taken as a
whole; if it blocks or panics, the others go on from the state it left. -/
def LoopSys.step (fuel : Nat) (σ : LoopSys) : LoopAct → Option LoopSys
  | .worker => σ.workerStep fuel
  | .stop => (Stop fuel σ.cfg).config?.map fun c => { σ with cfg := c }
  | .defer t => some { σ with cfg := σ.cfg.Defer t }

/-- Run a schedule. -/
def LoopSys.run (fuel : Nat) : List LoopAct → LoopSys → Option LoopSys
  | [], σ => some σ
  | a :: sched, σ => (σ.step fuel a).bind (LoopSys.run fuel sched)

/-- The calls in flight: one if the worker is inside `task()`. -/
def LoopSys.inFlight (σ : LoopSys) : Nat :=
  if σ.worker = .inCall then 1 else 0

/-! ## Concurrent calls of `Stop`

Each goroutine calling `Stop` is a thread with a program counter inside
`sync.Once.Do`/`doSlow` and the function literal of `Stop`; threads interleave
step by step. A cleanup task is run in one step. -/

/-- Where a goroutine is inside its call of `Stop`. -/
inductive Pc where
  /-- at the fast path `if o.done.Load() == 0` of `Do` -/
  | start : Pc
  /-- in `doSlow`, at `o.m.Lock()` -/
  | lockWait : Pc
  /-- the mutex is acquired; at `if o.done.Load() == 0` of `doSlow` -/
  | holding : Pc
  /-- in the function literal, at `close(s.C)` -/
  | closing : Pc
  /-- in the cleanup loop with `i + 1 = k`, at the test `i >= 0` -/
  | looping (k : Nat) : Pc
  /-- at `s.tasks = nil` -/
  | clearing : Pc
  /-- at the deferred `o.done.Store(1)` -/
  | storing : Pc
  /-- at the deferred `o.m.Unlock()` -/
  | unlocking : Pc
  /-- the call of `Stop` has returned -/
  | returned : Pc
  /-- blocked forever inside a cleanup task -/
  | stuck : Pc
  /-- the call panicked -/
  | crashed : Pc
  deriving DecidableEq, Repr

/-- One step of a goroutine; `none` when it cannot move: it waits for the mutex,
it is finished, or the model ran out of fuel. A panic runs the deferred
`o.done.Store(1)` and `o.m.Unlock()`. -/
def Pc.step (fuel : Nat) : Pc → Config → Option (Pc × Config)
  | .start, c => some (if c.s.once.done then .returned else .lockWait, c)
  | .lockWait, c =>
      if c.s.once.locked then none
      else some (.holding, c.setOnce { c.s.once with locked := true })
  | .holding, c => some (if c.s.once.done then .unlocking else .closing, c)
  | .closing, c =>
      match closeChan c with
      | .returned c1 => some (.looping c1.s.tasks.length, c1)
      | _ => some (.crashed, c.setOnce { done := true, locked := false })
  | .looping 0, c => some (.clearing, c)
  | .looping (i + 1), c =>
      match c.s.tasks[i]? with
      | none => some (.crashed, c.setOnce { done := true, locked := false })
      | some t =>
          match runTask (Stop fuel) t (c.record (.invoke i t c.s.C)) with
          | .returned c1 => some (.looping i, c1)
          | .deadlock c1 => some (.stuck, c1)
          | .panicked c1 => some (.crashed, c1.setOnce { done := true, locked := false })
          | .outOfFuel => none
  | .clearing, c => some (.storing, { c with s := { c.s with tasks := [] } })
  | .storing, c => some (.unlocking, c.setOnce { c.s.once with done := true })
  | .unlocking, c => some (.returned, c.setOnce { c.s.once with locked := false })
  | .returned, _ => none
  | .stuck, _ => none
  | .crashed, _ => none

/-- One stopper and the goroutines that are calling `Stop` on it. -/
structure Conc where
  cfg : Config
  threads : List Pc
  deriving DecidableEq, Repr

/-- Goroutine `i` takes one step, if it can. -/
def Conc.step (fuel : Nat) (i : Nat) (σ : Conc) : Option Conc :=
  match σ.threads[i]? with
  | none => none
  | some pc => (pc.step fuel σ.cfg).map fun r => { cfg := r.2, threads := σ.threads.set i r.1 }

/-- Run a schedule (a list of goroutine numbers); a goroutine that cannot move
when scheduled leaves the state as it is. -/
def Conc.run (fuel : Nat) : List Nat → Conc → Conc
  | [], σ => σ
  | i :: sched, σ => Conc.run fuel sched ((σ.step fuel i).getD σ)

/-- The stopper `c` with `N` goroutines about to call `Stop`. -/
def Conc.init (c : Config) (N : Nat) : Conc :=
  { cfg := c, threads := List.replicate N .start }

/-- Does a goroutine at this point hold the mutex of the guard? -/
def Pc.holdsLock : Pc → Bool
  | .holding => true
  | .closing => true
  | .looping _ => true
  | .clearing => true
  | .storing => true
  | .unlocking => true
  | .stuck => true
  | _ => false

/-- What a goroutine at this point knows about the stopper. -/
def Pc.ok (c : Config) : Pc → Prop
  | .start => True
  | .lockWait => True
  | .holding => c.s.once.locked = true ∧ (c.s.once.done = false → c.s.C = false)
  | .closing => c.s.once.locked = true ∧ c.s.once.done = false ∧ c.s.C = false
  | .looping k =>
      c.s.once.locked = true ∧ c.s.once.done = false ∧ c.s.C = true ∧ k ≤ c.s.tasks.length
  | .clearing => c.s.once.locked = true ∧ c.s.once.done = false ∧ c.s.C = true
  | .storing =>
      c.s.once.locked = true ∧ c.s.once.done = false ∧ c.s.C = true ∧ c.s.tasks = []
  | .unlocking => c.s.once.locked = true ∧ c.s.once.done = true
  | .returned => c.s.once.done = true
  | .stuck => c.s.once.locked = true ∧ c.s.once.done = false ∧ c.s.C = true
  | .crashed => False

/-- What holds of the stopper between any two steps of concurrent `Stop` calls:
a spent guard means the body has finished (channel closed, slice cleared); a
closed channel means the guard is spent or the body is running under the mutex;
`close(s.C)` has been executed `k0` times before the channel was closed and once
more since. -/
def Config.Sound (k0 : Nat) (c : Config) : Prop :=
  (c.s.once.done = true → c.s.C = true ∧ c.s.tasks = []) ∧
  (c.s.C = true → c.s.once.done = true ∨ c.s.once.locked = true) ∧
  closeCount c.trace = k0 + (if c.s.C then 1 else 0)

/-- The invariant of concurrent `Stop` calls: every goroutine is where the
stopper says it can be, at most one holds the mutex, and the stopper is sound. -/
def Conc.Inv (k0 : Nat) (σ : Conc) : Prop :=
  (∀ (i : Nat) (pc : Pc), σ.threads[i]? = some pc → pc.ok σ.cfg) ∧
  (∀ (i j : Nat) (a b : Pc), σ.threads[i]? = some a → σ.threads[j]? = some b →
    a.holdsLock = true → b.holdsLock = true → i = j) ∧
  σ.cfg.Sound k0

/-- Two goroutines call `Stop` on a stopper with one recording task: the first
runs up to the cleanup loop, then the second arrives. -/
def racingStops : Conc :=
  Conc.run 1 [0, 0, 0, 0, 1, 1] (Conc.init (New.Defer (.emit "a" .ret)) 2)

/-- The two recording tasks of the scenario: `a` appends "a", `b` appends "b". -/
def scenarioTasks : List Task :=
  [.emit "a" .ret, .emit "b" .ret]

/-- The configuration in which the cleanup loop of `Stop` starts on an open
stopper at rest: the mutex of the guard is held and `close(s.C)` has run. -/
def enterBody (c : Config) : Config :=
  { s := { C := true, once := { done := false, locked := true }, tasks := c.s.tasks }
    trace := c.trace ++ [.closed] }

/-- A task that registers the task "late" with `Defer` while it runs, then appends "a". -/
def deferringTask : Task :=
  .callDefer (.emit "late" .ret) (.emit "a" .ret)

/-- A task that looks at the channel and reports what it saw. -/
def probingTask : Task :=
  .ifClosed (.emit "closed" .ret) (.emit "open" .ret)

/-! ## Theorems -/

/-! ### Basic facts -/

theorem Config.extend_nil (c : Config) : c.extend [] [] = c := by
  cases c with
  | mk s trace => cases s; simp [Config.extend]

theorem Config.extend_extend (c : Config) (ts us : List Task) (es fs : List Event) :
    (c.extend ts es).extend us fs = c.extend (ts ++ us) (es ++ fs) := by
  simp [Config.extend]

theorem Config.record_eq_extend (c : Config) (e : Event) : c.record e = c.extend [] [e] := by
  cases c with
  | mk s trace => cases s; simp [Config.extend, Config.record]

theorem Config.Defer_eq_extend (c : Config) (t : Task) : c.Defer t = c.extend [t] [] := by
  simp [Config.extend, Config.Defer]

@[simp] theorem Config.extend_C (c : Config) (ts : List Task) (es : List Event) :
    (c.extend ts es).s.C = c.s.C := rfl

@[simp] theorem Config.extend_once (c : Config) (ts : List Task) (es : List Event) :
    (c.extend ts es).s.once = c.s.once := rfl

@[simp] theorem Config.extend_tasks (c : Config) (ts : List Task) (es : List Event) :
    (c.extend ts es).s.tasks = c.s.tasks ++ ts := rfl

@[simp] theorem Config.extend_trace (c : Config) (ts : List Task) (es : List Event) :
    (c.extend ts es).trace = c.trace ++ es := rfl

/-- A closure that does not reach `s.Stop()` returns, whatever `Stop` would do,
having appended its deferred tasks and its events. -/
theorem runTask_of_not_callsStop (stop : Config → Outcome Config) (t : Task) :
    ∀ c : Config, t.callsStop c.s.C = false →
      runTask stop t c = .returned (c.extend (t.deferred c.s.C) (t.events c.s.C)) := by
  induction t with
  | ret => intro c _; simp [runTask, Task.deferred, Task.events, Config.extend_nil]
  | emit tag k ih =>
      intro c h
      have h1 : k.callsStop (c.record (.emit tag)).s.C = false := by
        simpa [Task.callsStop, Config.record] using h
      rw [runTask, ih _ h1, Config.record_eq_extend, Config.extend_extend]
      simp [Task.deferred, Task.events]
  | ifClosed a b iha ihb =>
      intro c h
      cases hC : c.s.C with
      | true =>
          have h1 : a.callsStop (c.record (.probe true)).s.C = false := by
            simpa [Task.callsStop, Config.record, hC] using h
          rw [runTask, if_pos hC, iha _ h1, Config.record_eq_extend, Config.extend_extend]
          simp [Task.deferred, Task.events, hC]
      | false =>
          have h1 : b.callsStop (c.record (.probe false)).s.C = false := by
            simpa [Task.callsStop, Config.record, hC] using h
          rw [runTask, if_neg (by simp [hC]), ihb _ h1, Config.record_eq_extend,
            Config.extend_extend]
          simp [Task.deferred, Task.events, hC]
  | callDefer t k _ ihk =>
      intro c h
      have h1 : k.callsStop (c.Defer t).s.C = false := by
        simpa [Task.callsStop, Config.Defer] using h
      rw [runTask, ihk _ h1, Config.Defer_eq_extend, Config.extend_extend]
      simp [Task.deferred, Task.events]
  | callStop k _ => intro c h; simp [Task.callsStop] at h

/-- While the close body runs, a closure that reaches `s.Stop()` blocks there. -/
theorem runTask_of_callsStop (stop : Config → Outcome Config) (hstop : BlocksWhenLocked stop)
    (t : Task) :
    ∀ c : Config, c.s.once.locked = true → c.s.once.done = false →
      t.callsStop c.s.C = true →
      runTask stop t c = .deadlock (c.extend (t.deferred c.s.C) (t.events c.s.C)) := by
  induction t with
  | ret => intro c _ _ h; simp [Task.callsStop] at h
  | emit tag k ih =>
      intro c hl hd h
      have h1 : k.callsStop (c.record (.emit tag)).s.C = true := by
        simpa [Task.callsStop, Config.record] using h
      rw [runTask, ih (c.record (.emit tag)) hl hd h1, Config.record_eq_extend, Config.extend_extend]
      simp [Task.deferred, Task.events]
  | ifClosed a b iha ihb =>
      intro c hl hd h
      cases hC : c.s.C with
      | true =>
          have h1 : a.callsStop (c.record (.probe true)).s.C = true := by
            simpa [Task.callsStop, Config.record, hC] using h
          rw [runTask, if_pos hC, iha (c.record (.probe true)) hl hd h1, Config.record_eq_extend,
            Config.extend_extend]
          simp [Task.deferred, Task.events, hC]
      | false =>
          have h1 : b.callsStop (c.record (.probe false)).s.C = true := by
            simpa [Task.callsStop, Config.record, hC] using h
          rw [runTask, if_neg (by simp [hC]), ihb (c.record (.probe false)) hl hd h1, Config.record_eq_extend,
            Config.extend_extend]
          simp [Task.deferred, Task.events, hC]
  | callDefer t k _ ihk =>
      intro c hl hd h
      have h1 : k.callsStop (c.Defer t).s.C = true := by
        simpa [Task.callsStop, Config.Defer] using h
      rw [runTask, ihk (c.Defer t) hl hd h1, Config.Defer_eq_extend, Config.extend_extend]
      simp [Task.deferred, Task.events]
  | callStop k _ =>
      intro c hl hd _
      rw [runTask, hstop c hl hd]
      simp [Outcome.andThen, Task.deferred, Task.events, Config.extend_nil]

/-- A `Stop` on a spent guard returns at once and changes nothing. -/
theorem Stop_of_done (n : Nat) (c : Config) (h : c.s.once.done = true) :
    Stop (n + 1) c = .returned c := by
  simp [Stop, onceDo, h]

/-- A `Stop` while the mutex of the guard is held and the guard is not spent blocks. -/
theorem Stop_of_locked (n : Nat) (c : Config) (hl : c.s.once.locked = true)
    (hd : c.s.once.done = false) : Stop (n + 1) c = .deadlock c := by
  simp [Stop, onceDo, hl, hd]

theorem Stop_blocksWhenLocked (n : Nat) : BlocksWhenLocked (Stop (n + 1)) :=
  fun d hl hd => Stop_of_locked n d hl hd

/-! ### The cleanup loop -/

theorem loopEvents_cons (fired : Bool) (p : Nat × Task) (calls : List (Nat × Task)) :
    loopEvents fired (p :: calls) =
      .invoke p.1 p.2 fired :: (p.2.events fired ++ loopEvents fired calls) := by
  simp [loopEvents]

theorem enum_concat_reverse (init : List Task) (t : Task) :
    (init ++ [t]).enum.reverse = (init.length, t) :: init.enum.reverse := by
  simp [List.enum_append, List.enumFrom]

/-- When none of the first `i` tasks reaches `s.Stop()`, the loop started at
index `i - 1` calls exactly `s.tasks[i-1]`, ..., `s.tasks[0]` and returns; tasks
appended meanwhile land behind the slice and are not called. -/
theorem cleanupLoop_of_not_callsStop (stop : Config → Outcome Config) :
    ∀ (i : Nat) (c : Config) (ts : List Task), ts.length = i → c.s.tasks.take i = ts →
      (∀ t ∈ ts, t.callsStop c.s.C = false) →
      cleanupLoop stop i c =
        .returned (c.extend (ts.reverse.flatMap (Task.deferred c.s.C))
          (loopEvents c.s.C ts.enum.reverse)) := by
  intro i
  induction i with
  | zero =>
      intro c ts hlen _ _
      have : ts = [] := List.length_eq_zero.mp hlen
      subst this
      simp [cleanupLoop, loopEvents, Config.extend_nil]
  | succ i ih =>
      intro c ts hlen hpre hts
      obtain ⟨init, t, rfl⟩ : ∃ init t, ts = init ++ [t] := by
        rcases List.eq_nil_or_concat ts with h | ⟨init, t, h⟩
        · subst h; simp at hlen
        · exact ⟨init, t, by rw [h, List.concat_eq_append]⟩
      have hinit : init.length = i := by simpa using hlen
      have hget : c.s.tasks[i]? = some t := by
        have h1 := congrArg (fun l => l[i]?) hpre
        simp only [List.getElem?_take] at h1
        rw [if_pos (Nat.lt_succ_self i)] at h1
        rw [h1, ← hinit]; simp
      have hinit2 : c.s.tasks.take i = init := by
        have h1 := congrArg (List.take i) hpre
        rw [List.take_take, Nat.min_eq_left (Nat.le_succ i)] at h1
        rw [h1, ← hinit]; simp
      have hi1 : i ≤ c.s.tasks.length := by
        have h1 := congrArg List.length hinit2
        rw [List.length_take, hinit] at h1
        omega
      have ht : t.callsStop c.s.C = false := hts t (by simp)
      have hrun := runTask_of_not_callsStop stop t (c.record (.invoke i t c.s.C)) ht
      rw [cleanupLoop, hget]
      simp only []
      rw [hrun, Outcome.andThen, Config.record_eq_extend, Config.extend_extend]
      simp only [Config.extend_C]
      rw [ih _ init hinit
        (by
          simp only [Config.extend_tasks]
          rw [List.take_append_of_le_length hi1]; exact hinit2)
        (by
          intro u hu
          simp only [Config.extend_C]
          exact hts u (List.mem_append_left _ hu))]
      rw [Config.extend_extend, enum_concat_reverse, hinit]
      simp [loopEvents_cons]

/-! ### Reading the trace -/

theorem invocations_append (es fs : List Event) :
    invocations (es ++ fs) = invocations es ++ invocations fs := by
  induction es with
  | nil => rfl
  | cons e es ih => cases e <;> simp [invocations, ih]

theorem recorded_append (es fs : List Event) :
    recorded (es ++ fs) = recorded es ++ recorded fs := by
  induction es with
  | nil => rfl
  | cons e es ih => cases e <;> simp [recorded, ih]

theorem invocations_events (fired : Bool) (t : Task) : invocations (t.events fired) = [] := by
  induction t with
  | ret => rfl
  | emit tag k ih => simpa [Task.events, invocations] using ih
  | ifClosed a b iha ihb => cases fired <;> simpa [Task.events, invocations]
  | callDefer t k _ ihk => simpa [Task.events] using ihk
  | callStop k _ => rfl

theorem closeCount_events (fired : Bool) (t : Task) : closeCount (t.events fired) = 0 := by
  induction t with
  | ret => rfl
  | emit tag k ih => simpa [Task.events, closeCount] using ih
  | ifClosed a b iha ihb => cases fired <;> simpa [Task.events, closeCount]
  | callDefer t k _ ihk => simpa [Task.events] using ihk
  | callStop k _ => rfl

theorem invocations_loopEvents (fired : Bool) (calls : List (Nat × Task)) :
    invocations (loopEvents fired calls) = calls := by
  induction calls with
  | nil => rfl
  | cons p calls ih =>
      rw [loopEvents_cons, invocations, invocations_append, invocations_events, ih]
      rfl

theorem closeCount_loopEvents (fired : Bool) (calls : List (Nat × Task)) :
    closeCount (loopEvents fired calls) = 0 := by
  induction calls with
  | nil => rfl
  | cons p calls ih =>
      have h1 := closeCount_events fired p.2
      unfold closeCount at *
      rw [loopEvents_cons, List.count_cons, List.count_append, h1, ih]
      simp

theorem recorded_loopEvents (fired : Bool) (calls : List (Nat × Task)) :
    recorded (loopEvents fired calls) =
      calls.flatMap fun p => recorded (p.2.events fired) := by
  induction calls with
  | nil => rfl
  | cons p calls ih =>
      rw [loopEvents_cons]
      simp [recorded, recorded_append, ih]

theorem sees_events (fired : Bool) (t : Task) : ∀ e ∈ t.events fired, e.sees fired := by
  induction t with
  | ret => intro e he; simp [Task.events] at he
  | emit tag k ih =>
      intro e he
      simp only [Task.events, List.mem_cons] at he
      rcases he with rfl | he
      · trivial
      · exact ih e he
  | ifClosed a b iha ihb =>
      intro e he
      simp only [Task.events, List.mem_cons] at he
      rcases he with rfl | he
      · rfl
      · cases fired
        · exact ihb e (by simpa using he)
        · exact iha e (by simpa using he)
  | callDefer t k _ ihk => intro e he; exact ihk e (by simpa [Task.events] using he)
  | callStop k _ => intro e he; simp [Task.events] at he

/-! ### `Defer` and `Stop` at rest -/

theorem deferAll_eq_extend (ts : List Task) : ∀ c : Config, deferAll ts c = c.extend ts [] := by
  induction ts with
  | nil => intro c; simp [deferAll, Config.extend_nil]
  | cons t ts ih =>
      intro c
      have h := ih (c.Defer t)
      unfold deferAll at h ⊢
      rw [List.foldl_cons, h, Config.Defer_eq_extend, Config.extend_extend]
      simp

theorem New_quiescent : New.Quiescent := by decide

theorem Defer_quiescent (c : Config) (t : Task) (h : c.Quiescent) : (c.Defer t).Quiescent := h

/-- The first `Stop` on a stopper at rest whose tasks all return: it returns,
having closed the channel, run the slice backwards and cleared it. -/
theorem Stop_of_open (n : Nat) (c : Config) (hq : c.Quiescent) (ho : c.s.C = false)
    (hret : ∀ t ∈ c.s.tasks, t.callsStop true = false) :
    Stop (n + 1) c = .returned (afterStop c) := by
  obtain ⟨hl, hd⟩ := hq
  rw [ho] at hd
  have hloop := cleanupLoop_of_not_callsStop (Stop n) c.s.tasks.length
    ({ s := { C := true, once := { done := false, locked := true }, tasks := c.s.tasks },
       trace := c.trace ++ [.closed] } : Config) c.s.tasks rfl (by simp) hret
  simp only [Stop, onceDo, hd, hl, Config.setOnce, closeBody, closeChan, ho, Config.record]
  simp only [Bool.false_eq_true, if_false, Outcome.andThen]
  rw [hloop]
  simp [Outcome.andThen, afterStop, Config.extend]

theorem afterStop_quiescent (c : Config) : (afterStop c).Quiescent := ⟨rfl, rfl⟩

theorem recorded_loopEvents_enum (fired : Bool) (ts : List Task) :
    recorded (loopEvents fired ts.enum.reverse) =
      ts.reverse.flatMap fun t => recorded (t.events fired) := by
  rw [recorded_loopEvents]
  have h : ts.reverse = ts.enum.reverse.map Prod.snd := by
    rw [List.map_reverse, List.enum_map_snd]
  rw [h, List.flatMap_map]

theorem StopTimes_of_done (n : Nat) (c : Config) (h : c.s.once.done = true) :
    ∀ N : Nat, StopTimes (n + 1) N c = .returned c := by
  intro N
  induction N with
  | zero => rfl
  | succ N ih => rw [StopTimes, Stop_of_done n c h, Outcome.andThen, ih]

/-! ### The cleanup loop with tasks that call `Stop` -/

/-- Whatever the tasks do, every call and every probe made by the cleanup loop
while the close body holds the guard sees the channel in its current state. -/
theorem cleanupLoop_sees (stop : Config → Outcome Config) (hstop : BlocksWhenLocked stop) :
    ∀ (i : Nat) (c : Config), c.s.once.locked = true → c.s.once.done = false →
      ∃ ts es, (cleanupLoop stop i c = .returned (c.extend ts es) ∨
          cleanupLoop stop i c = .deadlock (c.extend ts es) ∨
          cleanupLoop stop i c = .panicked (c.extend ts es)) ∧
        ∀ e ∈ es, e.sees c.s.C := by
  intro i
  induction i with
  | zero =>
      intro c _ _
      exact ⟨[], [], Or.inl (by simp [cleanupLoop, Config.extend_nil]), by simp⟩
  | succ i ih =>
      intro c hl hd
      cases hget : c.s.tasks[i]? with
      | none =>
          exact ⟨[], [], Or.inr (Or.inr (by simp [cleanupLoop, hget, Config.extend_nil])),
            by simp⟩
      | some t =>
          have hsee : ∀ e ∈ [Event.invoke i t c.s.C] ++ t.events c.s.C, e.sees c.s.C := by
            intro e he
            rcases List.mem_append.mp he with h | h
            · rw [List.mem_singleton.mp h]; rfl
            · exact sees_events _ _ e h
          cases hcs : t.callsStop c.s.C with
          | true =>
              have hrun := runTask_of_callsStop stop hstop t
                (c.record (.invoke i t c.s.C)) hl hd hcs
              refine ⟨[] ++ t.deferred c.s.C, [.invoke i t c.s.C] ++ t.events c.s.C,
                Or.inr (Or.inl ?_), hsee⟩
              rw [cleanupLoop, hget]
              simp only []
              rw [hrun, Outcome.andThen, Config.record_eq_extend, Config.extend_extend]
              rfl
          | false =>
              have hrun := runTask_of_not_callsStop stop t
                (c.record (.invoke i t c.s.C)) hcs
              obtain ⟨ts, es, hres, hes⟩ :=
                ih (c.extend ([] ++ t.deferred c.s.C)
                  ([.invoke i t c.s.C] ++ t.events c.s.C)) hl hd
              refine ⟨([] ++ t.deferred c.s.C) ++ ts,
                ([.invoke i t c.s.C] ++ t.events c.s.C) ++ es, ?_, ?_⟩
              · rw [cleanupLoop, hget]
                simp only []
                rw [hrun, Outcome.andThen, Config.record_eq_extend, Config.extend_extend]
                simp only [Config.extend_C]
                rw [Config.extend_extend] at hres
                exact hres
              · intro e he
                rcases List.mem_append.mp he with h | h
                · exact hsee e h
                · exact hes e h

/-- If one of the first `i` tasks reaches `s.Stop()`, the cleanup loop blocks. -/
theorem cleanupLoop_of_callsStop (stop : Config → Outcome Config) (hstop : BlocksWhenLocked stop) :
    ∀ (i : Nat) (c : Config) (ts : List Task), ts.length = i → c.s.tasks.take i = ts →
      c.s.once.locked = true → c.s.once.done = false →
      (∃ t ∈ ts, t.callsStop c.s.C = true) →
      ∃ c', cleanupLoop stop i c = .deadlock c' := by
  intro i
  induction i with
  | zero =>
      intro c ts hlen _ _ _ hex
      have : ts = [] := List.length_eq_zero.mp hlen
      subst this
      simp at hex
  | succ i ih =>
      intro c ts hlen hpre hl hd hex
      obtain ⟨init, t, rfl⟩ : ∃ init t, ts = init ++ [t] := by
        rcases List.eq_nil_or_concat ts with h | ⟨init, t, h⟩
        · subst h; simp at hlen
        · exact ⟨init, t, by rw [h, List.concat_eq_append]⟩
      have hinit : init.length = i := by simpa using hlen
      have hget : c.s.tasks[i]? = some t := by
        have h1 := congrArg (fun l => l[i]?) hpre
        simp only [List.getElem?_take] at h1
        rw [if_pos (Nat.lt_succ_self i)] at h1
        rw [h1, ← hinit]; simp
      have hinit2 : c.s.tasks.take i = init := by
        have h1 := congrArg (List.take i) hpre
        rw [List.take_take, Nat.min_eq_left (Nat.le_succ i)] at h1
        rw [h1, ← hinit]; simp
      have hi1 : i ≤ c.s.tasks.length := by
        have h1 := congrArg List.length hinit2
        rw [List.length_take, hinit] at h1
        omega
      cases hcs : t.callsStop c.s.C with
      | true =>
          have hrun := runTask_of_callsStop stop hstop t
            (c.record (.invoke i t c.s.C)) hl hd hcs
          have hdl : cleanupLoop stop (i + 1) c = .deadlock
              ((c.record (.invoke i t c.s.C)).extend (t.deferred c.s.C) (t.events c.s.C)) := by
            rw [cleanupLoop, hget]
            simp only []
            rw [hrun, Outcome.andThen]
            rfl
          exact ⟨_, hdl⟩
      | false =>
          have hrun := runTask_of_not_callsStop stop t
            (c.record (.invoke i t c.s.C)) hcs
          have hex2 : ∃ u ∈ init, u.callsStop c.s.C = true := by
            obtain ⟨u, hu, hus⟩ := hex
            rcases List.mem_append.mp hu with h | h
            · exact ⟨u, h, hus⟩
            · rw [List.mem_singleton.mp h, hcs] at hus; cases hus
          obtain ⟨c', hc'⟩ := ih ((c.record (.invoke i t c.s.C)).extend
              (t.deferred c.s.C) (t.events c.s.C)) init hinit
            (by
              rw [Config.record_eq_extend, Config.extend_extend]
              simp only [Config.extend_tasks]
              rw [List.take_append_of_le_length hi1]; exact hinit2)
            hl hd hex2
          refine ⟨c', ?_⟩
          rw [cleanupLoop, hget]
          simp only []
          rw [hrun, Outcome.andThen]
          exact hc'

/-- The first `Stop` on a stopper at rest one of whose tasks calls `Stop` on the
same stopper never returns: the goroutine blocks inside the close body. -/
theorem Stop_of_open_callsStop (n : Nat) (c : Config) (hq : c.Quiescent) (ho : c.s.C = false)
    (hex : ∃ t ∈ c.s.tasks, t.callsStop true = true) :
    ∃ c', Stop (n + 2) c = .deadlock c' := by
  obtain ⟨hl, hd⟩ := hq
  rw [ho] at hd
  obtain ⟨c', hloop⟩ := cleanupLoop_of_callsStop (Stop (n + 1)) (Stop_blocksWhenLocked n)
    c.s.tasks.length
    ({ s := { C := true, once := { done := false, locked := true }, tasks := c.s.tasks },
       trace := c.trace ++ [.closed] } : Config) c.s.tasks rfl (by simp) rfl rfl hex
  refine ⟨c', ?_⟩
  rw [Stop]
  simp only [onceDo, hd, hl, Config.setOnce, closeBody, closeChan, ho, Config.record]
  simp only [Bool.false_eq_true, if_false, Outcome.andThen]
  rw [hloop]

/-! ### What a `Stop` appends to the trace -/

theorem closeBody_returned (stop : Config → Outcome Config) (c c2 : Config)
    (h : closeBody stop c = .returned c2) : c2.s.tasks = [] := by
  unfold closeBody at h
  cases h1 : closeChan c with
  | returned c1 =>
      rw [h1, Outcome.andThen] at h
      cases h2 : cleanupLoop stop c1.s.tasks.length c1 with
      | returned c3 =>
          rw [h2, Outcome.andThen] at h
          cases h; rfl
      | deadlock c3 => rw [h2, Outcome.andThen] at h; cases h
      | panicked c3 => rw [h2, Outcome.andThen] at h; cases h
      | outOfFuel => rw [h2, Outcome.andThen] at h; cases h
  | deadlock c1 => rw [h1, Outcome.andThen] at h; cases h
  | panicked c1 => rw [h1, Outcome.andThen] at h; cases h
  | outOfFuel => rw [h1, Outcome.andThen] at h; cases h

/-- A `Stop` that ran the close body and returned left an empty slice and a spent guard. -/
theorem Stop_returned (n : Nat) (c c' : Config) (hd : c.s.once.done = false)
    (h : Stop (n + 1) c = .returned c') :
    c'.s.tasks = [] ∧ c'.s.once.done = true ∧ c'.s.once.locked = false := by
  rw [Stop] at h
  unfold onceDo at h
  simp only [hd, Config.setOnce, Bool.false_eq_true, if_false] at h
  cases hl : c.s.once.locked with
  | true => simp [hl] at h
  | false =>
      simp only [hl, Bool.false_eq_true, if_false] at h
      split at h
      · rename_i c2 hb
        simp only [Outcome.returned.injEq] at h
        subst h
        exact ⟨closeBody_returned _ _ c2 hb, rfl, rfl⟩
      · simp at h
      · simp at h
      · simp at h

/-- Every `Stop` (with fuel for one nested call) ends in a configuration whose
trace extends the old one either by nothing or by `closed` followed by events
that all see the channel closed; it never re-opens the channel, and on a
stopper at rest it leaves the channel closed. -/
theorem Stop_trace (n : Nat) (c : Config) :
    ∃ c' es, (Stop (n + 2) c).config? = some c' ∧ c'.trace = c.trace ++ es ∧
      (es = [] ∨ ∃ es', es = .closed :: es' ∧ ∀ e ∈ es', e.sees true) ∧
      (c.s.C = true → c'.s.C = true) ∧ (c.Quiescent → c'.s.C = true) := by
  cases hd : c.s.once.done with
  | true =>
      exact ⟨c, [], by rw [Stop_of_done _ c hd]; rfl, by simp, Or.inl rfl, id,
        fun hq => by rw [← hq.2, hd]⟩
  | false =>
    cases hl : c.s.once.locked with
    | true =>
        exact ⟨c, [], by rw [Stop_of_locked _ c hl hd]; rfl, by simp, Or.inl rfl, id,
          fun hq => by rw [hq.1] at hl; cases hl⟩
    | false =>
      cases hC : c.s.C with
      | true =>
          refine ⟨c.setOnce { done := true, locked := false }, [], ?_, ?_, Or.inl rfl,
            fun _ => hC, fun _ => hC⟩
          · rw [Stop]
            simp only [onceDo, hd, hl, Config.setOnce, closeBody, closeChan, hC,
              Bool.false_eq_true, if_false, if_true, Outcome.andThen]
            rfl
          · simp [Config.setOnce]
      | false =>
          obtain ⟨ts, es, hres, hes⟩ := cleanupLoop_sees (Stop (n + 1))
            (Stop_blocksWhenLocked n) c.s.tasks.length (enterBody c) rfl rfl
          have hstop : ∀ o, cleanupLoop (Stop (n + 1)) c.s.tasks.length (enterBody c) = o →
              Stop (n + 2) c = match
                o.andThen fun c2 => .returned { c2 with s := { c2.s with tasks := [] } } with
              | .returned c2 => .returned (c2.setOnce { done := true, locked := false })
              | .panicked c2 => .panicked (c2.setOnce { done := true, locked := false })
              | .deadlock c2 => .deadlock c2
              | .outOfFuel => .outOfFuel := by
            intro o ho
            rw [Stop]
            simp only [onceDo, hd, hl, Config.setOnce, closeBody, closeChan, hC,
              Bool.false_eq_true, if_false, Outcome.andThen, Config.record]
            rw [← ho]
            rfl
          rcases hres with h | h | h
          · exact ⟨_, .closed :: es, by rw [hstop _ h]; rfl,
              by simp [enterBody, Config.extend, Config.setOnce], Or.inr ⟨es, rfl, hes⟩,
              fun _ => rfl, fun _ => rfl⟩
          · exact ⟨_, .closed :: es, by rw [hstop _ h]; rfl,
              by simp [enterBody, Config.extend], Or.inr ⟨es, rfl, hes⟩,
              fun _ => rfl, fun _ => rfl⟩
          · exact ⟨_, .closed :: es, by rw [hstop _ h]; rfl,
              by simp [enterBody, Config.extend, Config.setOnce], Or.inr ⟨es, rfl, hes⟩,
              fun _ => rfl, fun _ => rfl⟩

/-! ### Frames: what calls cannot do -/

theorem Frame.refl (c : Config) : Frame c c :=
  ⟨id, [], by simp, by simp⟩

theorem Frame.trans {a b c : Config} (h1 : Frame a b) (h2 : Frame b c) : Frame a c := by
  obtain ⟨hC1, es, htr1, hes1⟩ := h1
  obtain ⟨hC2, fs, htr2, hes2⟩ := h2
  refine ⟨fun h => hC2 (hC1 h), es ++ fs, by rw [htr2, htr1, List.append_assoc], ?_⟩
  intro e he
  rcases List.mem_append.mp he with h | h
  · exact hes1 e h
  · exact hes2 e h

theorem Frame.record (c : Config) (e : Event) (he : e.byWorker = false) :
    Frame c (c.record e) :=
  ⟨id, [e], rfl, by simpa using he⟩

theorem Frame.Defer (c : Config) (t : Task) : Frame c (c.Defer t) :=
  ⟨id, [], by simp [Config.Defer], by simp⟩

theorem byWorker_of_sees {fired : Bool} {e : Event} (h : e.sees fired) : e.byWorker = false := by
  cases e <;> first | rfl | exact absurd h id

theorem Stop_framed (n : Nat) : Framed (Stop (n + 2)) := by
  intro c
  obtain ⟨c', es, hcfg, htr, hes, hC, _⟩ := Stop_trace n c
  refine ⟨c', hcfg, hC, es, htr, ?_⟩
  intro e he
  rcases hes with rfl | ⟨es', rfl, hsee⟩
  · simp at he
  · rcases List.mem_cons.mp he with h | h
    · rw [h]; rfl
    · exact byWorker_of_sees (hsee e h)

/-- A task run outside any close body ends in some configuration, within the frame. -/
theorem runTask_framed (stop : Config → Outcome Config) (hstop : Framed stop) (t : Task) :
    Framed (runTask stop t) := by
  induction t with
  | ret => intro c; exact ⟨c, rfl, Frame.refl c⟩
  | emit tag k ih =>
      intro c
      obtain ⟨c', h, hf⟩ := ih (c.record (.emit tag))
      exact ⟨c', by rw [runTask]; exact h, (Frame.record c (.emit tag) rfl).trans hf⟩
  | ifClosed a b iha ihb =>
      intro c
      cases hC : c.s.C with
      | true =>
          obtain ⟨c', h, hf⟩ := iha (c.record (.probe true))
          exact ⟨c', by rw [runTask, if_pos hC]; exact h,
            (Frame.record c (.probe true) rfl).trans hf⟩
      | false =>
          obtain ⟨c', h, hf⟩ := ihb (c.record (.probe false))
          exact ⟨c', by rw [runTask, if_neg (by simp [hC])]; exact h,
            (Frame.record c (.probe false) rfl).trans hf⟩
  | callDefer t k _ ihk =>
      intro c
      obtain ⟨c', h, hf⟩ := ihk (c.Defer t)
      exact ⟨c', by rw [runTask]; exact h, (Frame.Defer c t).trans hf⟩
  | callStop k ih =>
      intro c
      obtain ⟨c1, h1, hf1⟩ := hstop c
      cases hs : stop c with
      | returned c2 =>
          have : c2 = c1 := by rw [hs] at h1; exact Option.some.inj h1
          subst this
          obtain ⟨c', h, hf⟩ := ih c2
          exact ⟨c', by rw [runTask, hs, Outcome.andThen]; exact h, hf1.trans hf⟩
      | deadlock c2 =>
          have : c2 = c1 := by rw [hs] at h1; exact Option.some.inj h1
          subst this
          exact ⟨c2, by rw [runTask, hs]; rfl, hf1⟩
      | panicked c2 =>
          have : c2 = c1 := by rw [hs] at h1; exact Option.some.inj h1
          subst this
          exact ⟨c2, by rw [runTask, hs]; rfl, hf1⟩
      | outOfFuel => rw [hs] at h1; cases h1

theorem Frame.loopCalls {c c' : Config} (h : Frame c c') :
    loopCalls c'.trace = loopCalls c.trace := by
  obtain ⟨_, es, htr, hes⟩ := h
  have h0 : es.count .loopCall = 0 :=
    List.count_eq_zero.mpr fun hmem => by have := hes _ hmem; cases this
  unfold gstop.loopCalls
  rw [htr, List.count_append, h0, Nat.add_zero]

theorem Frame.loopReturns {c c' : Config} (h : Frame c c') :
    loopReturns c'.trace = loopReturns c.trace := by
  obtain ⟨_, es, htr, hes⟩ := h
  have h0 : es.count .loopReturn = 0 :=
    List.count_eq_zero.mpr fun hmem => by have := hes _ hmem; cases this
  unfold gstop.loopReturns
  rw [htr, List.count_append, h0, Nat.add_zero]

/-! ### Sequences of calls -/

theorem runCalls_defers (fuel : Nat) (cs : List Call) (ts : List Task) :
    ∀ c : Config, runCalls fuel (ts.map .defer ++ cs) c = runCalls fuel cs (deferAll ts c) := by
  induction ts with
  | nil => intro c; rfl
  | cons t ts ih =>
      intro c
      rw [List.map_cons, List.cons_append, runCalls, ih]
      rfl

theorem runCalls_stops_of_done (n : Nat) (c : Config) (h : c.s.once.done = true) :
    ∀ k : Nat, runCalls (n + 1) (List.replicate k .stop) c = .returned c := by
  intro k
  induction k with
  | zero => rfl
  | succ k ih => rw [List.replicate_succ, runCalls, Stop_of_done n c h, Outcome.andThen, ih]

/-- A `Stop` that returns leaves the stopper at rest. -/
theorem Stop_returned_quiescent (n : Nat) (c c' : Config) (hq : c.Quiescent)
    (h : Stop (n + 2) c = .returned c') : c'.Quiescent := by
  cases hd : c.s.once.done with
  | true =>
      rw [Stop_of_done _ c hd] at h
      cases h; exact hq
  | false =>
      obtain ⟨_, hd', hl'⟩ := Stop_returned (n + 1) c c' hd h
      obtain ⟨c'', _, hcfg, _, _, _, hclosed⟩ := Stop_trace n c
      rw [h] at hcfg
      cases hcfg
      exact ⟨hl', by rw [hd', hclosed hq]⟩

/-- Every state reached from a stopper at rest by calls of `Defer` and `Stop`
is at rest; in particular every state so reached from `New`. -/
theorem runCalls_quiescent (n : Nat) (cs : List Call) :
    ∀ c c' : Config, c.Quiescent → runCalls (n + 2) cs c = .returned c' → c'.Quiescent := by
  induction cs with
  | nil => intro c c' hq h; cases h; exact hq
  | cons x cs ih =>
      intro c c' hq h
      cases x with
      | defer t => exact ih (c.Defer t) c' hq h
      | stop =>
          rw [runCalls] at h
          cases hs : Stop (n + 2) c with
          | returned c1 =>
              rw [hs, Outcome.andThen] at h
              exact ih c1 c' (Stop_returned_quiescent n c c1 hq hs) h
          | deadlock c1 => rw [hs, Outcome.andThen] at h; cases h
          | panicked c1 => rw [hs, Outcome.andThen] at h; cases h
          | outOfFuel => rw [hs, Outcome.andThen] at h; cases h

/-! ### Watchers -/

theorem Outcome.config?_map {σ τ : Type} (f : σ → τ) (o : Outcome σ) :
    (o.map f).config? = o.config?.map f := by
  cases o <;> rfl

theorem parentWatcher_eq_childWatcher : Link.parentWatcher = Link.childWatcher := rfl

/-- Once the upper channel is closed, the watcher is enabled, and whichever case
it takes it leaves the lower stopper as a `Stop` on it leaves it, hence closed,
and the upper one untouched. -/
theorem childWatcher_of_up_closed (n : Nat) (pick : Bool) (l : Link)
    (hw : l.watching = true) (hup : l.up.s.C = true) (hdown : l.down.Quiescent) :
    ∃ o l2, l.childWatcher (n + 2) pick = some o ∧ o.config? = some l2 ∧
      l2.down.s.C = true ∧ l2.watching = false ∧ l2.up = l.up ∧
      (Stop (n + 2) l.down).config? = some l2.down := by
  obtain ⟨d, _, hcfg, _, _, _, hclosed⟩ := Stop_trace n l.down
  have hstop : (((Stop (n + 2) l.down).map fun d => { l with down := d, watching := false })
      : Outcome Link).config? = some { l with down := d, watching := false } := by
    rw [Outcome.config?_map, hcfg]; rfl
  cases hC : l.down.s.C with
  | false =>
      exact ⟨_, _, by simp [Link.childWatcher, hw, hup, hC], hstop, hclosed hdown, rfl, rfl,
        hcfg⟩
  | true =>
      cases pick with
      | true =>
          exact ⟨_, _, by simp [Link.childWatcher, hw, hup, hC], hstop, hclosed hdown, rfl,
            rfl, hcfg⟩
      | false =>
          have hd : l.down.s.once.done = true := by rw [hdown.2, hC]
          exact ⟨.returned { l with watching := false }, { l with watching := false },
            by simp [Link.childWatcher, hw, hup, hC], rfl, hC, rfl, rfl,
            by rw [Stop_of_done (n + 1) l.down hd]; rfl⟩

/-- When only the lower channel is closed, the watcher just returns. -/
theorem childWatcher_of_down_closed (fuel : Nat) (pick : Bool) (l : Link)
    (hw : l.watching = true) (hup : l.up.s.C = false) (hdown : l.down.s.C = true) :
    l.childWatcher fuel pick = some (.returned { l with watching := false }) := by
  simp [Link.childWatcher, hw, hup, hdown]

/-- While neither channel is closed, the watcher is blocked at its `select`. -/
theorem childWatcher_blocked (fuel : Nat) (pick : Bool) (l : Link)
    (hup : l.up.s.C = false) (hdown : l.down.s.C = false) :
    l.childWatcher fuel pick = none := by
  simp [Link.childWatcher, hup, hdown]

/-! ### The `Loop` worker on a closed stopper -/

theorem loopCalls_record (c : Config) (e : Event) (he : e ≠ .loopCall) :
    loopCalls (c.record e).trace = loopCalls c.trace := by
  have h0 : [e].count .loopCall = 0 :=
    List.count_eq_zero.mpr (by simpa using fun h => he h.symm)
  unfold loopCalls Config.record
  simp only [List.count_append, h0, Nat.add_zero]

/-- On a closed stopper no step of the system starts a call of the task, and
only the call in flight, if any, can still return. -/
theorem LoopSys.step_of_closed (n : Nat) (σ : LoopSys) (hC : σ.cfg.s.C = true) (a : LoopAct) :
    ∃ σ', σ.step (n + 2) a = some σ' ∧ σ'.cfg.s.C = true ∧
      loopCalls σ'.cfg.trace = loopCalls σ.cfg.trace ∧
      loopReturns σ'.cfg.trace + σ'.inFlight ≤ loopReturns σ.cfg.trace + σ.inFlight := by
  cases a with
  | worker =>
      cases hwk : σ.worker with
      | atSelect =>
          exact ⟨{ σ with worker := .exited },
            by simp [LoopSys.step, LoopSys.workerStep, hwk, hC], hC, rfl,
            by simp [LoopSys.inFlight, hwk]⟩
      | inCall =>
          obtain ⟨c', hcfg, hf⟩ := runTask_framed (Stop (n + 2)) (Stop_framed n) σ.task σ.cfg
          cases hrun : runTask (Stop (n + 2)) σ.task σ.cfg with
          | returned c =>
              have : c = c' := by rw [hrun] at hcfg; exact Option.some.inj hcfg
              subst this
              refine ⟨{ σ with cfg := c.record .loopReturn, worker := .atSelect },
                by simp [LoopSys.step, LoopSys.workerStep, hwk, hrun], hf.1 hC, ?_, ?_⟩
              · show loopCalls (c.record .loopReturn).trace = _
                rw [loopCalls_record _ _ (by decide), hf.loopCalls]
              · have h1 : loopReturns (c.record .loopReturn).trace = loopReturns c.trace + 1 := by
                  unfold loopReturns Config.record
                  simp [List.count_append]
                show loopReturns (c.record .loopReturn).trace + _ ≤ _
                rw [h1, hf.loopReturns]
                simp [LoopSys.inFlight, hwk]
          | deadlock c =>
              have : c = c' := by rw [hrun] at hcfg; exact Option.some.inj hcfg
              subst this
              refine ⟨{ σ with cfg := c, worker := .stuck },
                by simp [LoopSys.step, LoopSys.workerStep, hwk, hrun], hf.1 hC,
                hf.loopCalls, ?_⟩
              show loopReturns c.trace + _ ≤ _
              rw [hf.loopReturns]
              simp [LoopSys.inFlight, hwk]
          | panicked c =>
              have : c = c' := by rw [hrun] at hcfg; exact Option.some.inj hcfg
              subst this
              refine ⟨{ σ with cfg := c, worker := .crashed },
                by simp [LoopSys.step, LoopSys.workerStep, hwk, hrun], hf.1 hC,
                hf.loopCalls, ?_⟩
              show loopReturns c.trace + _ ≤ _
              rw [hf.loopReturns]
              simp [LoopSys.inFlight, hwk]
          | outOfFuel => rw [hrun] at hcfg; cases hcfg
      | exited =>
          exact ⟨σ, by simp [LoopSys.step, LoopSys.workerStep, hwk], hC, rfl, Nat.le_refl _⟩
      | stuck =>
          exact ⟨σ, by simp [LoopSys.step, LoopSys.workerStep, hwk], hC, rfl, Nat.le_refl _⟩
      | crashed =>
          exact ⟨σ, by simp [LoopSys.step, LoopSys.workerStep, hwk], hC, rfl, Nat.le_refl _⟩
  | stop =>
      obtain ⟨c', hcfg, hf⟩ := Stop_framed n σ.cfg
      refine ⟨{ σ with cfg := c' }, by simp [LoopSys.step, hcfg], hf.1 hC, hf.loopCalls, ?_⟩
      show loopReturns c'.trace + _ ≤ _
      rw [hf.loopReturns]
      exact Nat.le_refl _
  | defer t =>
      exact ⟨{ σ with cfg := σ.cfg.Defer t }, rfl, hC, rfl, Nat.le_refl _⟩

theorem LoopSys.run_of_closed (n : Nat) (sched : List LoopAct) :
    ∀ σ : LoopSys, σ.cfg.s.C = true →
      ∃ σ', LoopSys.run (n + 2) sched σ = some σ' ∧ σ'.cfg.s.C = true ∧
        loopCalls σ'.cfg.trace = loopCalls σ.cfg.trace ∧
        loopReturns σ'.cfg.trace + σ'.inFlight ≤ loopReturns σ.cfg.trace + σ.inFlight := by
  induction sched with
  | nil => intro σ hC; exact ⟨σ, rfl, hC, rfl, Nat.le_refl _⟩
  | cons a sched ih =>
      intro σ hC
      obtain ⟨σ1, h1, hC1, hc1, hr1⟩ := LoopSys.step_of_closed n σ hC a
      obtain ⟨σ2, h2, hC2, hc2, hr2⟩ := ih σ1 hC1
      exact ⟨σ2, by rw [LoopSys.run, h1]; exact h2, hC2, hc2.trans hc1, Nat.le_trans hr2 hr1⟩

/-! ### Claims about a single stopper -/

/-- C1: for tasks `T1..Tn` registered in that order with `Defer` on a stopper
returned by `New` (each task returning when called), the first `Stop` returns
after calling exactly `Tn, ..., T1`, in that order, each once: the calls of the
cleanup loop are the pairs `(i, Ti)` in reverse order of registration, and the
outside effects appear in that order. -/
theorem Stop_runs_tasks_in_reverse_order (ts : List Task)
    (hret : ∀ t ∈ ts, t.callsStop true = false) (n : Nat) :
    ∃ c', Stop (n + 1) (deferAll ts New) = .returned c' ∧
      invocations c'.trace = ts.enum.reverse ∧
      (invocations c'.trace).map Prod.snd = ts.reverse ∧
      recorded c'.trace = ts.reverse.flatMap (fun t => recorded (t.events true)) := by
  have hq : (deferAll ts New).Quiescent := by
    rw [deferAll_eq_extend]; exact New_quiescent
  have htasks : (deferAll ts New).s.tasks = ts := by
    rw [deferAll_eq_extend]; simp [New]
  have htrace : (deferAll ts New).trace = [] := by
    rw [deferAll_eq_extend]; simp [New]
  have ho : (deferAll ts New).s.C = false := by
    rw [deferAll_eq_extend]; rfl
  have hinv : invocations (afterStop (deferAll ts New)).trace = ts.enum.reverse := by
    simp only [afterStop, htrace, htasks, List.nil_append, invocations]
    exact invocations_loopEvents _ _
  refine ⟨afterStop (deferAll ts New),
    Stop_of_open n _ hq ho (by rw [htasks]; exact hret), hinv, ?_, ?_⟩
  · rw [hinv, List.map_reverse, List.enum_map_snd]
  · simp only [afterStop, htrace, htasks, List.nil_append, recorded]
    exact recorded_loopEvents_enum _ _

/-- Witness for C1: the scenario `Defer(a); Defer(b); Stop()` records `["b", "a"]`. -/
theorem Stop_runs_tasks_in_reverse_order_witness :
    (∀ t ∈ scenarioTasks, t.callsStop true = false) ∧
    ∃ c', Stop 2 (deferAll scenarioTasks New) = .returned c' ∧
      invocations c'.trace = [(1, .emit "b" .ret), (0, .emit "a" .ret)] ∧
      (invocations c'.trace).map Prod.snd = [.emit "b" .ret, .emit "a" .ret] ∧
      recorded c'.trace = ["b", "a"] :=
  ⟨by decide, Stop_runs_tasks_in_reverse_order scenarioTasks (by decide) 1⟩

/-- C2 (as stated, refuted): in the state reached by `New; Stop; Defer(x)`, a
stopper at rest, the task `x` is registered and returns, yet three calls of
`Stop` in a row run it zero times and leave it registered. -/
theorem late_task_is_not_run_by_Stop :
    ∃ c, runCalls 2 [.stop, .defer (.emit "x" .ret)] New = .returned c ∧ c.Quiescent ∧
      c.s.tasks = [.emit "x" .ret] ∧ (∀ t ∈ c.s.tasks, t.callsStop true = false) ∧
      StopTimes 2 3 c = .returned c ∧ invocations c.trace = [] ∧ recorded c.trace = [] :=
  ⟨_, rfl, by decide, by decide, by decide, by decide, by decide, by decide⟩

/-- C2 (amended): `Stop` is idempotent under sequential calls on a stopper at
rest. On an open stopper whose cleanup tasks each return, `N >= 1` calls of
`Stop` in a row return; together they execute `close(s.C)` exactly once and call
each registered task exactly once, in reverse order, and leave the slice empty.
Every `Stop` on an already closed stopper calls no task and leaves the
configuration unchanged (so a task registered after the close is never run). -/
theorem Stop_idempotent (c : Config) (hq : c.Quiescent) (N : Nat) (hN : 1 ≤ N) (n : Nat) :
    (c.s.C = false → (∀ t ∈ c.s.tasks, t.callsStop true = false) →
      ∃ c', StopTimes (n + 1) N c = .returned c' ∧ c'.s.C = true ∧
        closeCount c'.trace = closeCount c.trace + 1 ∧
        invocations c'.trace = invocations c.trace ++ c.s.tasks.enum.reverse ∧
        c'.s.tasks = [] ∧
        Stop (n + 1) c' = .returned c') ∧
    (c.s.C = true → Stop (n + 1) c = .returned c ∧ StopTimes (n + 1) N c = .returned c) := by
  obtain ⟨k, rfl⟩ : ∃ k, N = k + 1 := ⟨N - 1, by omega⟩
  constructor
  · intro hC hret
    refine ⟨afterStop c, ?_, rfl, ?_, ?_, rfl, Stop_of_done n _ rfl⟩
    · rw [StopTimes, Stop_of_open n c hq hC hret, Outcome.andThen]
      exact StopTimes_of_done n _ rfl k
    · have h := closeCount_loopEvents true c.s.tasks.enum.reverse
      unfold closeCount at h ⊢
      simp only [afterStop, List.count_append, List.count_cons, h]
      simp
    · simp only [afterStop, invocations_append, invocations, invocations_loopEvents]
  · intro hC
    have hd : c.s.once.done = true := by rw [hq.2, hC]
    exact ⟨Stop_of_done n c hd, StopTimes_of_done n c hd _⟩

/-- Witness for C2 (amended): three calls of `Stop` after `Defer(a); Defer(b)`,
and three more on the closed stopper. -/
theorem Stop_idempotent_witness :
    (deferAll scenarioTasks New).Quiescent ∧ 1 ≤ 3 ∧
    (deferAll scenarioTasks New).s.C = false ∧
    (∀ t ∈ (deferAll scenarioTasks New).s.tasks, t.callsStop true = false) ∧
    (∃ c', StopTimes 2 3 (deferAll scenarioTasks New) = .returned c' ∧ c'.s.C = true ∧
      closeCount c'.trace = 0 + 1 ∧
      invocations c'.trace = [] ++ [(1, .emit "b" .ret), (0, .emit "a" .ret)] ∧
      c'.s.tasks = [] ∧
      Stop 2 c' = .returned c') ∧
    (afterStop (deferAll scenarioTasks New)).Quiescent ∧
    (afterStop (deferAll scenarioTasks New)).s.C = true ∧
    Stop 2 (afterStop (deferAll scenarioTasks New)) =
      .returned (afterStop (deferAll scenarioTasks New)) ∧
    StopTimes 2 3 (afterStop (deferAll scenarioTasks New)) =
      .returned (afterStop (deferAll scenarioTasks New)) :=
  ⟨by decide, by decide, rfl, by decide,
    (Stop_idempotent (deferAll scenarioTasks New) (by decide) 3 (by decide) 1).1 rfl
      (by decide),
    by decide, rfl,
    (Stop_idempotent (afterStop (deferAll scenarioTasks New)) (by decide) 3 (by decide) 1).2
      rfl⟩

/-- C6: cleanup tasks execute only after the close event has fired. For every
configuration, a `Stop` ends leaving a trace extended by some events; every call
`s.tasks[i]()` among them was made with `s.C` already closed, every inspection of
`s.C` by a task saw it closed, and if any task was called, the first new event
is the execution of `close(s.C)`. -/
theorem cleanup_runs_after_close (c : Config) (n : Nat) :
    ∃ c' es, (Stop (n + 2) c).config? = some c' ∧ c'.trace = c.trace ++ es ∧
      (∀ i t fired, Event.invoke i t fired ∈ es → fired = true) ∧
      (∀ fired, Event.probe fired ∈ es → fired = true) ∧
      (invocations es ≠ [] → es.head? = some .closed) := by
  obtain ⟨c', es, hcfg, htr, hes⟩ := Stop_trace n c
  refine ⟨c', es, hcfg, htr, ?_, ?_, ?_⟩
  · intro i t fired hmem
    rcases hes with rfl | ⟨es', rfl, hsee⟩
    · simp at hmem
    · rcases List.mem_cons.mp hmem with h | h
      · cases h
      · exact hsee _ h
  · intro fired hmem
    rcases hes with rfl | ⟨es', rfl, hsee⟩
    · simp at hmem
    · rcases List.mem_cons.mp hmem with h | h
      · cases h
      · exact hsee _ h
  · intro hne
    rcases hes with rfl | ⟨es', rfl, _⟩
    · exact absurd rfl hne
    · rfl

/-- A task that inspects the stopper while `Stop` runs it observes it closed. -/
theorem probingTask_sees_closed :
    (Stop 2 (New.Defer probingTask)).config?.map Config.trace =
      some [.closed, .invoke 0 probingTask true, .probe true, .emit "closed"] := by
  decide

/-- C7 (as stated, refuted): a `Defer` made after `Stop` puts a task back in the
slice, where it stays. -/
theorem task_retained_after_late_Defer :
    ∃ c', runCalls 2 [.stop, .defer .ret] New = .returned c' ∧ c'.s.tasks ≠ [] :=
  ⟨_, rfl, by decide⟩

/-- C7 (amended): in every state reached from `New` by `Defer` calls followed by
one or more `Stop` calls (no `Defer` after the first `Stop`), the slice of
cleanup tasks is empty; and such a state is reached whenever the tasks return. -/
theorem no_task_retained_after_Stop (ts : List Task) (k n : Nat) :
    (∀ c', runCalls (n + 1) (ts.map .defer ++ List.replicate (k + 1) .stop) New = .returned c' →
      c'.s.tasks = []) ∧
    ((∀ t ∈ ts, t.callsStop true = false) →
      ∃ c', runCalls (n + 1) (ts.map .defer ++ List.replicate (k + 1) .stop) New =
        .returned c') := by
  have hd : (deferAll ts New).s.once.done = false := by
    rw [deferAll_eq_extend]; rfl
  constructor
  · intro c' h
    rw [runCalls_defers, List.replicate_succ, runCalls] at h
    cases hs : Stop (n + 1) (deferAll ts New) with
    | returned c1 =>
        obtain ⟨ht, hd1, _⟩ := Stop_returned n _ c1 hd hs
        rw [hs, Outcome.andThen, runCalls_stops_of_done n c1 hd1] at h
        cases h
        exact ht
    | deadlock c1 => rw [hs, Outcome.andThen] at h; cases h
    | panicked c1 => rw [hs, Outcome.andThen] at h; cases h
    | outOfFuel => rw [hs, Outcome.andThen] at h; cases h
  · intro hret
    have hq : (deferAll ts New).Quiescent := by
      rw [deferAll_eq_extend]; exact New_quiescent
    have ho : (deferAll ts New).s.C = false := by
      rw [deferAll_eq_extend]; rfl
    have htasks : (deferAll ts New).s.tasks = ts := by
      rw [deferAll_eq_extend]; simp [New]
    refine ⟨afterStop (deferAll ts New), ?_⟩
    rw [runCalls_defers, List.replicate_succ, runCalls,
      Stop_of_open n _ hq ho (by rw [htasks]; exact hret), Outcome.andThen]
    exact runCalls_stops_of_done n _ rfl k

/-- Witness for C7 (amended): `Defer(a); Defer(b); Stop(); Stop()`. -/
theorem no_task_retained_after_Stop_witness :
    (∀ c', runCalls 2 (scenarioTasks.map .defer ++ List.replicate 2 .stop) New = .returned c' →
      c'.s.tasks = []) ∧
    ((∀ t ∈ scenarioTasks, t.callsStop true = false) →
      ∃ c', runCalls 2 (scenarioTasks.map .defer ++ List.replicate 2 .stop) New =
        .returned c') ∧
    (∀ t ∈ scenarioTasks, t.callsStop true = false) ∧
    runCalls 2 (scenarioTasks.map .defer ++ List.replicate 2 .stop) New =
      .returned (afterStop (deferAll scenarioTasks New)) :=
  ⟨(no_task_retained_after_Stop scenarioTasks 1 1).1,
    (no_task_retained_after_Stop scenarioTasks 1 1).2, by decide, by decide⟩

/-- C8 (as stated, refuted): a `Stop` made from inside a cleanup task is not a
no-op; with the task `func() { s.Stop() }` registered, `Stop` never returns. -/
theorem Stop_from_cleanup_task_never_returns :
    ¬ ∃ n c', Stop n (New.Defer (.callStop .ret)) = .returned c' := by
  rintro ⟨n, c', h⟩
  match n, h with
  | 0, h => cases h
  | 1, h =>
      have h1 : Stop 1 (New.Defer (.callStop .ret)) = .outOfFuel := by decide
      rw [h1] at h; cases h
  | n + 2, h =>
      obtain ⟨d, hd⟩ := Stop_of_open_callsStop n (New.Defer (.callStop .ret))
        (by decide) rfl ⟨.callStop .ret, by decide, rfl⟩
      rw [hd] at h; cases h

/-- C8 (amended): on a stopper at rest whose cleanup tasks each return, every
call of `Stop` returns (no panic, no deadlock). A `Stop` on the same stopper made
while its close body is running, e.g. from inside a cleanup task, blocks forever
on the mutex of the guard, and then the enclosing `Stop` does not return either. -/
theorem Stop_returns_unless_reentered (c : Config) (hq : c.Quiescent) (n : Nat) :
    ((∀ t ∈ c.s.tasks, t.callsStop true = false) → ∃ c', Stop (n + 1) c = .returned c') ∧
    (∀ d : Config, d.s.once.locked = true → d.s.once.done = false →
      Stop (n + 1) d = .deadlock d) ∧
    (c.s.C = false → (∃ t ∈ c.s.tasks, t.callsStop true = true) →
      ∃ c', Stop (n + 2) c = .deadlock c') := by
  refine ⟨?_, fun d hl hd => Stop_of_locked n d hl hd,
    fun ho hex => Stop_of_open_callsStop n c hq ho hex⟩
  intro hret
  cases hC : c.s.C with
  | true => exact ⟨c, Stop_of_done n c (by rw [hq.2, hC])⟩
  | false => exact ⟨_, Stop_of_open n c hq hC hret⟩

/-- Witness for C8 (amended): `Stop` returns on the scenario stopper, and blocks
when called in the configuration in which the cleanup loop runs. -/
theorem Stop_returns_unless_reentered_witness :
    (deferAll scenarioTasks New).Quiescent ∧
    (∀ t ∈ (deferAll scenarioTasks New).s.tasks, t.callsStop true = false) ∧
    (∃ c', Stop 2 (deferAll scenarioTasks New) = .returned c') ∧
    Stop 2 (enterBody New) = .deadlock (enterBody New) :=
  ⟨by decide, by decide,
    (Stop_returns_unless_reentered (deferAll scenarioTasks New) (by decide) 1).1 (by decide),
    (Stop_returns_unless_reentered (deferAll scenarioTasks New) (by decide) 1).2.1
      (enterBody New) rfl rfl⟩

/-- C10: a `Defer` made from inside a cleanup task while `Stop` runs its cleanup
loop is silently dropped. On an open stopper at rest (tasks returning), the loop
ends with the tasks appended meanwhile sitting behind the original slice; the
calls made by this `Stop` are exactly the original `(i, s.tasks[i])`, all with
`i` below the length read at loop start; the slice is then cleared; and no later
`Stop` calls anything. -/
theorem Defer_during_cleanup_is_dropped (c : Config) (hq : c.Quiescent) (ho : c.s.C = false)
    (hret : ∀ t ∈ c.s.tasks, t.callsStop true = false) (n : Nat) :
    ∃ c1 c', cleanupLoop (Stop n) c.s.tasks.length (enterBody c) = .returned c1 ∧
      c1.s.tasks = c.s.tasks ++ c.s.tasks.reverse.flatMap (Task.deferred true) ∧
      Stop (n + 1) c = .returned c' ∧
      invocations c'.trace = invocations c.trace ++ c.s.tasks.enum.reverse ∧
      (∀ p ∈ c.s.tasks.enum.reverse, p.1 < c.s.tasks.length ∧ c.s.tasks[p.1]? = some p.2) ∧
      c'.s.tasks = [] ∧
      ∀ N, StopTimes (n + 1) N c' = .returned c' := by
  have hloop := cleanupLoop_of_not_callsStop (Stop n) c.s.tasks.length (enterBody c)
    c.s.tasks rfl (by simp [enterBody]) hret
  refine ⟨_, afterStop c, hloop, rfl, Stop_of_open n c hq ho hret, ?_, ?_, rfl,
    StopTimes_of_done n _ rfl⟩
  · simp only [afterStop, invocations_append, invocations, invocations_loopEvents]
  · intro p hp
    have hp2 : p ∈ c.s.tasks.enum := List.mem_reverse.mp hp
    exact ⟨List.fst_lt_of_mem_enum hp2, List.mem_enum_iff_getElem?.mp hp2⟩

/-- Witness for C10: the only registered task defers the task "late" while it
runs; "late" is appended during the loop, never called, and gone afterwards. -/
theorem Defer_during_cleanup_is_dropped_witness :
    (New.Defer deferringTask).Quiescent ∧ (New.Defer deferringTask).s.C = false ∧
    (∀ t ∈ (New.Defer deferringTask).s.tasks, t.callsStop true = false) ∧
    ∃ c1 c', cleanupLoop (Stop 1) 1 (enterBody (New.Defer deferringTask)) = .returned c1 ∧
      c1.s.tasks = [deferringTask, .emit "late" .ret] ∧
      Stop 2 (New.Defer deferringTask) = .returned c' ∧
      invocations c'.trace = [(0, deferringTask)] ∧
      (∀ p ∈ [(0, deferringTask)], p.1 < 1 ∧ [deferringTask][p.1]? = some p.2) ∧
      c'.s.tasks = [] ∧
      ∀ N, StopTimes 2 N c' = .returned c' :=
  ⟨by decide, rfl, by decide,
    Defer_during_cleanup_is_dropped (New.Defer deferringTask) (by decide) rfl (by decide) 1⟩

/-! ### Claims about linked stoppers and the `Loop` worker -/

/-- C3: the child cascade is downward only. Let `C = P.NewChild()` (that is
`NewChild(P.C)`): `C` is a fresh open stopper without tasks, linked to `P` by a
watcher that can move only once `P.C` or `C.C` is closed; then any tasks `ts` are
registered on `C`. (a) `P.Stop()` does to `P` what `Stop` does and leaves `C`
alone; `P.C` is then closed, the watcher is enabled, and its run does to `C`
exactly what `C.Stop()` does, leaving `C` closed and `P` untouched. (b) `C.Stop()`
on an open `P` does to `C` what `Stop` does on the fresh stopper holding `ts`
(no task of `P` is called); the watcher then just returns; `P` is exactly as
before: open, its tasks registered and none of them called. -/
theorem child_cascade_is_downward_only (p : Config) (hp : p.Quiescent) (ts : List Task)
    (n : Nat) (pick : Bool) :
    ((NewChild p).up = p ∧ (NewChild p).down = New ∧ (NewChild p).watching = true) ∧
    (p.s.C = false → ((NewChild p).deferDown ts).childWatcher (n + 2) pick = none) ∧
    (∃ l1 o l2, (((NewChild p).deferDown ts).stopUp (n + 2)).config? = some l1 ∧
        (Stop (n + 2) p).config? = some l1.up ∧ l1.down = deferAll ts New ∧
        l1.up.s.C = true ∧ l1.childWatcher (n + 2) pick = some o ∧ o.config? = some l2 ∧
        (Stop (n + 2) (deferAll ts New)).config? = some l2.down ∧ l2.up = l1.up ∧
        l2.down.s.C = true ∧ l2.watching = false) ∧
    (p.s.C = false →
      ∃ l1 l2, (((NewChild p).deferDown ts).stopDown (n + 2)).config? = some l1 ∧
        (Stop (n + 2) (deferAll ts New)).config? = some l1.down ∧
        l1.down.s.C = true ∧ l1.up = p ∧
        l1.childWatcher (n + 2) pick = some (.returned l2) ∧
        l2.up = p ∧ l2.down = l1.down ∧ l2.watching = false ∧
        l2.up.s.C = false ∧ l2.up.s.tasks = p.s.tasks ∧
        invocations l2.up.trace = invocations p.trace) := by
  have hdq : (deferAll ts New).Quiescent := by
    rw [deferAll_eq_extend]; exact ⟨rfl, rfl⟩
  have hdo : (deferAll ts New).s.C = false := by
    rw [deferAll_eq_extend]; rfl
  refine ⟨⟨rfl, rfl, rfl⟩,
    fun ho => childWatcher_blocked (n + 2) pick ((NewChild p).deferDown ts) ho hdo, ?_, ?_⟩
  · obtain ⟨p1, _, hcfg, _, _, _, hclosed⟩ := Stop_trace n p
    have h1 : (((NewChild p).deferDown ts).stopUp (n + 2)).config? =
        some { (NewChild p).deferDown ts with up := p1 } := by
      unfold Link.stopUp
      rw [Outcome.config?_map]
      show Option.map _ (Stop (n + 2) p).config? = _
      rw [hcfg]; rfl
    obtain ⟨o, l2, ho, hcfg2, hC2, hw2, hup2, hdown2⟩ := childWatcher_of_up_closed n pick
      { (NewChild p).deferDown ts with up := p1 } rfl (hclosed hp) hdq
    exact ⟨{ (NewChild p).deferDown ts with up := p1 }, o, l2, h1, hcfg, rfl, hclosed hp, ho,
      hcfg2, hdown2, hup2, hC2, hw2⟩
  · intro ho
    obtain ⟨d1, _, hcfg, _, _, _, hclosed⟩ := Stop_trace n (deferAll ts New)
    have h1 : (((NewChild p).deferDown ts).stopDown (n + 2)).config? =
        some { (NewChild p).deferDown ts with down := d1 } := by
      unfold Link.stopDown
      rw [Outcome.config?_map]
      show Option.map _ (Stop (n + 2) (deferAll ts New)).config? = _
      rw [hcfg]; rfl
    exact ⟨{ (NewChild p).deferDown ts with down := d1 },
      { (NewChild p).deferDown ts with down := d1, watching := false },
      h1, hcfg, hclosed hdq, rfl,
      childWatcher_of_down_closed (n + 2) pick
        { (NewChild p).deferDown ts with down := d1 } rfl ho (hclosed hdq),
      rfl, rfl, rfl, ho, rfl, rfl⟩

/-- Witness for C3: the parent holds the scenario tasks, the child a probing task. -/
theorem child_cascade_is_downward_only_witness :
    (deferAll scenarioTasks New).Quiescent ∧
    (∃ l1 o l2, (((NewChild (deferAll scenarioTasks New)).deferDown [probingTask]).stopUp
          2).config? = some l1 ∧
        (Stop 2 (deferAll scenarioTasks New)).config? = some l1.up ∧
        l1.down = deferAll [probingTask] New ∧
        l1.up.s.C = true ∧ l1.childWatcher 2 true = some o ∧ o.config? = some l2 ∧
        (Stop 2 (deferAll [probingTask] New)).config? = some l2.down ∧ l2.up = l1.up ∧
        l2.down.s.C = true ∧ l2.watching = false) ∧
    ((deferAll scenarioTasks New).s.C = false →
      ∃ l1 l2, (((NewChild (deferAll scenarioTasks New)).deferDown [probingTask]).stopDown
          2).config? = some l1 ∧
        (Stop 2 (deferAll [probingTask] New)).config? = some l1.down ∧
        l1.down.s.C = true ∧ l1.up = deferAll scenarioTasks New ∧
        l1.childWatcher 2 true = some (.returned l2) ∧
        l2.up = deferAll scenarioTasks New ∧ l2.down = l1.down ∧ l2.watching = false ∧
        l2.up.s.C = false ∧ l2.up.s.tasks = (deferAll scenarioTasks New).s.tasks ∧
        invocations l2.up.trace = invocations (deferAll scenarioTasks New).trace) :=
  ⟨by decide,
    (child_cascade_is_downward_only (deferAll scenarioTasks New) (by decide) [probingTask]
      0 true).2.2⟩

/-- C4: the parent cascade is downward only. Let `P = S.NewParent()`: `P` is a
fresh open stopper without tasks, linked to the receiver `S` by a watcher that
can move only once `P.C` or `S.C` is closed; then any tasks `ts` are registered
on `P`. (a) `P.Stop()` does to `P` what `Stop` does on the fresh stopper holding
`ts` and leaves `S` alone; `P.C` is then closed, the watcher is enabled, and its
run does to `S` exactly what `S.Stop()` does: `S` is closed, a non-blocking
receive on `S.C` succeeds. (b) `S.Stop()` does to `S` what `Stop` does; the
watcher then just returns; `P` is still the open fresh stopper with `ts`
registered and none of them called. -/
theorem parent_cascade_is_downward_only (s : Config) (hs : s.Quiescent) (ts : List Task)
    (n : Nat) (pick : Bool) :
    ((NewParent s).up = New ∧ (NewParent s).down = s ∧ (NewParent s).watching = true) ∧
    (s.s.C = false → ((NewParent s).deferUp ts).parentWatcher (n + 2) pick = none) ∧
    (∃ l1 o l2, (((NewParent s).deferUp ts).stopUp (n + 2)).config? = some l1 ∧
        (Stop (n + 2) (deferAll ts New)).config? = some l1.up ∧ l1.down = s ∧
        l1.up.s.C = true ∧ l1.parentWatcher (n + 2) pick = some o ∧ o.config? = some l2 ∧
        (Stop (n + 2) s).config? = some l2.down ∧ l2.up = l1.up ∧
        l2.down.tryReceive = true ∧ l2.watching = false) ∧
    (∃ l1 l2, (((NewParent s).deferUp ts).stopDown (n + 2)).config? = some l1 ∧
        (Stop (n + 2) s).config? = some l1.down ∧ l1.up = deferAll ts New ∧
        l1.down.s.C = true ∧
        l1.parentWatcher (n + 2) pick = some (.returned l2) ∧
        l2.up = deferAll ts New ∧ l2.down = l1.down ∧ l2.watching = false ∧
        l2.up.s.C = false ∧ l2.up.s.tasks = ts ∧ l2.up.trace = []) := by
  have huq : (deferAll ts New).Quiescent := by
    rw [deferAll_eq_extend]; exact ⟨rfl, rfl⟩
  have huo : (deferAll ts New).s.C = false := by
    rw [deferAll_eq_extend]; rfl
  have hut : (deferAll ts New).s.tasks = ts := by
    rw [deferAll_eq_extend]; rfl
  have hutr : (deferAll ts New).trace = [] := by
    rw [deferAll_eq_extend]; rfl
  refine ⟨⟨rfl, rfl, rfl⟩, fun ho => ?_, ?_, ?_⟩
  · rw [parentWatcher_eq_childWatcher]
    exact childWatcher_blocked (n + 2) pick ((NewParent s).deferUp ts) huo ho
  · obtain ⟨p1, _, hcfg, _, _, _, hclosed⟩ := Stop_trace n (deferAll ts New)
    have h1 : (((NewParent s).deferUp ts).stopUp (n + 2)).config? =
        some { (NewParent s).deferUp ts with up := p1 } := by
      unfold Link.stopUp
      rw [Outcome.config?_map]
      show Option.map _ (Stop (n + 2) (deferAll ts New)).config? = _
      rw [hcfg]; rfl
    obtain ⟨o, l2, ho, hcfg2, hC2, hw2, hup2, hdown2⟩ := childWatcher_of_up_closed n pick
      { (NewParent s).deferUp ts with up := p1 } rfl (hclosed huq) hs
    exact ⟨{ (NewParent s).deferUp ts with up := p1 }, o, l2, h1, hcfg, rfl, hclosed huq,
      by rw [parentWatcher_eq_childWatcher]; exact ho, hcfg2, hdown2, hup2, hC2, hw2⟩
  · obtain ⟨d1, _, hcfg, _, _, _, hclosed⟩ := Stop_trace n s
    have h1 : (((NewParent s).deferUp ts).stopDown (n + 2)).config? =
        some { (NewParent s).deferUp ts with down := d1 } := by
      unfold Link.stopDown
      rw [Outcome.config?_map]
      show Option.map _ (Stop (n + 2) s).config? = _
      rw [hcfg]; rfl
    refine ⟨{ (NewParent s).deferUp ts with down := d1 },
      { (NewParent s).deferUp ts with down := d1, watching := false },
      h1, hcfg, rfl, hclosed hs, ?_, rfl, rfl, rfl, huo, hut, hutr⟩
    rw [parentWatcher_eq_childWatcher]
    exact childWatcher_of_down_closed (n + 2) pick
      { (NewParent s).deferUp ts with down := d1 } rfl huo (hclosed hs)

/-- Witness for C4: the wrapped signal holds the scenario tasks, the new parent
a probing task. -/
theorem parent_cascade_is_downward_only_witness :
    (deferAll scenarioTasks New).Quiescent ∧
    (∃ l1 o l2, (((NewParent (deferAll scenarioTasks New)).deferUp [probingTask]).stopUp
          2).config? = some l1 ∧
        (Stop 2 (deferAll [probingTask] New)).config? = some l1.up ∧
        l1.down = deferAll scenarioTasks New ∧
        l1.up.s.C = true ∧ l1.parentWatcher 2 true = some o ∧ o.config? = some l2 ∧
        (Stop 2 (deferAll scenarioTasks New)).config? = some l2.down ∧ l2.up = l1.up ∧
        l2.down.tryReceive = true ∧ l2.watching = false) ∧
    (∃ l1 l2, (((NewParent (deferAll scenarioTasks New)).deferUp [probingTask]).stopDown
          2).config? = some l1 ∧
        (Stop 2 (deferAll scenarioTasks New)).config? = some l1.down ∧
        l1.up = deferAll [probingTask] New ∧
        l1.down.s.C = true ∧
        l1.parentWatcher 2 true = some (.returned l2) ∧
        l2.up = deferAll [probingTask] New ∧ l2.down = l1.down ∧ l2.watching = false ∧
        l2.up.s.C = false ∧ l2.up.s.tasks = [probingTask] ∧ l2.up.trace = []) :=
  ⟨by decide,
    (parent_cascade_is_downward_only (deferAll scenarioTasks New) (by decide) [probingTask]
      0 true).2.2⟩

/-- C5: `Loop` never starts a call of the task on a closed stopper. (a) After
`S.Stop()` on a stopper at rest, whatever the worker and the other goroutines do
next, the number of calls `task()` started by the worker does not grow, and at
most the call in flight returns. (b) An iteration that begins with `S.C` closed
returns without calling the task. (c) A `Loop` started on a closed stopper never
calls the task. -/
theorem Loop_never_calls_on_closed (σ : LoopSys) (hq : σ.cfg.Quiescent) (n : Nat)
    (sched : List LoopAct) :
    (∃ σ1 σ', σ.step (n + 2) .stop = some σ1 ∧ σ1.cfg.s.C = true ∧
        LoopSys.run (n + 2) sched σ1 = some σ' ∧ σ'.cfg.s.C = true ∧
        loopCalls σ'.cfg.trace = loopCalls σ.cfg.trace ∧
        loopReturns σ'.cfg.trace ≤ loopReturns σ.cfg.trace + σ.inFlight) ∧
    (∀ τ : LoopSys, τ.cfg.s.C = true → τ.worker = .atSelect →
        τ.workerStep (n + 2) = some { τ with worker := .exited }) ∧
    (∀ task, σ.cfg.s.C = true →
      ∃ σ', LoopSys.run (n + 2) sched (Loop σ.cfg task) = some σ' ∧
        loopCalls σ'.cfg.trace = loopCalls σ.cfg.trace ∧
        (Loop σ.cfg task).workerStep (n + 2) = some { Loop σ.cfg task with worker := .exited }) := by
  refine ⟨?_, ?_, ?_⟩
  · obtain ⟨c1, _, hcfg, _, _, _, hclosed⟩ := Stop_trace n σ.cfg
    obtain ⟨c1', hcfg', hf⟩ := Stop_framed n σ.cfg
    have : c1' = c1 := by rw [hcfg] at hcfg'; exact (Option.some.inj hcfg').symm
    subst this
    obtain ⟨σ', hrun, hC', hcalls, hrets⟩ :=
      LoopSys.run_of_closed n sched { σ with cfg := c1' } (hclosed hq)
    refine ⟨{ σ with cfg := c1' }, σ', by simp [LoopSys.step, hcfg], hclosed hq, hrun, hC',
      hcalls.trans hf.loopCalls, ?_⟩
    have h2 : loopReturns σ'.cfg.trace + σ'.inFlight ≤ loopReturns c1'.trace + σ.inFlight :=
      hrets
    rw [hf.loopReturns] at h2
    omega
  · intro τ hC hwk
    simp [LoopSys.workerStep, hwk, hC]
  · intro task hC
    obtain ⟨σ', hrun, _, hcalls, _⟩ := LoopSys.run_of_closed n sched (Loop σ.cfg task) hC
    exact ⟨σ', hrun, hcalls, by simp [LoopSys.workerStep, Loop, hC]⟩

/-! ### Concurrent calls of `Stop` -/

theorem closeCount_append (es fs : List Event) :
    closeCount (es ++ fs) = closeCount es + closeCount fs := by
  unfold closeCount; exact List.count_append _ _ _

/-- One step of a goroutine keeps what it knows true and the stopper sound; it
never unsets `done`; it takes the mutex only when it is free; and a step outside
the mutex that stays outside does not touch the stopper. -/
theorem Pc.step_spec (n k0 : Nat) (pc pc' : Pc) (c c' : Config) (hok : pc.ok c)
    (hG : c.Sound k0) (hstep : pc.step (n + 1) c = some (pc', c')) :
    pc'.ok c' ∧ c'.Sound k0 ∧ (c.s.once.done = true → c'.s.once.done = true) ∧
      (pc.holdsLock = false → pc'.holdsLock = true → c.s.once.locked = false) ∧
      (pc.holdsLock = false → pc'.holdsLock = false → c' = c) := by
  obtain ⟨hG1, hG2, hG3⟩ := hG
  cases pc with
  | start =>
      simp only [Pc.step, Option.some.injEq, Prod.mk.injEq] at hstep
      obtain ⟨rfl, rfl⟩ := hstep
      refine ⟨?_, ⟨hG1, hG2, hG3⟩, id, ?_, fun _ _ => rfl⟩
      · cases hd : c.s.once.done <;> simp [Pc.ok, hd]
      · cases hd : c.s.once.done <;> simp [Pc.holdsLock, hd]
  | lockWait =>
      cases hl : c.s.once.locked with
      | true => simp [Pc.step, hl] at hstep
      | false =>
          simp only [Pc.step, hl, Bool.false_eq_true, if_false, Option.some.injEq,
            Prod.mk.injEq] at hstep
          obtain ⟨rfl, rfl⟩ := hstep
          refine ⟨⟨rfl, ?_⟩, ⟨hG1, ?_, hG3⟩, id, fun _ _ => rfl, ?_⟩
          · intro hd
            show c.s.C = false
            cases hC : c.s.C with
            | false => rfl
            | true =>
                rcases hG2 hC with h | h
                · exact absurd (show c.s.once.done = false from hd) (by rw [h]; decide)
                · exact absurd h (by rw [hl]; decide)
          · intro _; exact Or.inr rfl
          · intro _ h; simp [Pc.holdsLock] at h
  | holding =>
      simp only [Pc.step, Option.some.injEq, Prod.mk.injEq] at hstep
      obtain ⟨rfl, rfl⟩ := hstep
      obtain ⟨hl, hC⟩ := hok
      refine ⟨?_, ⟨hG1, hG2, hG3⟩, id, fun h => by simp [Pc.holdsLock] at h,
        fun h => by simp [Pc.holdsLock] at h⟩
      cases hd : c.s.once.done with
      | true => exact ⟨hl, hd⟩
      | false => exact ⟨hl, hd, hC hd⟩
  | closing =>
      obtain ⟨hl, hd, hC⟩ := hok
      simp only [Pc.step, closeChan, hC, Bool.false_eq_true, if_false, Option.some.injEq,
        Prod.mk.injEq] at hstep
      obtain ⟨rfl, rfl⟩ := hstep
      refine ⟨⟨hl, hd, rfl, Nat.le_refl _⟩, ⟨?_, fun _ => Or.inr hl, ?_⟩, ?_,
        fun h => by simp [Pc.holdsLock] at h, fun h => by simp [Pc.holdsLock] at h⟩
      · intro h
        exact absurd (show c.s.once.done = true from h) (by rw [hd]; decide)
      · show closeCount (c.trace ++ [Event.closed]) = k0 + 1
        rw [closeCount_append, hG3, hC]; rfl
      · intro h; exact absurd h (by rw [hd]; decide)
  | looping k =>
      obtain ⟨hl, hd, hC, hk⟩ := hok
      cases k with
      | zero =>
          simp only [Pc.step, Option.some.injEq, Prod.mk.injEq] at hstep
          obtain ⟨rfl, rfl⟩ := hstep
          exact ⟨⟨hl, hd, hC⟩, ⟨hG1, hG2, hG3⟩, id, fun h => by simp [Pc.holdsLock] at h,
            fun h => by simp [Pc.holdsLock] at h⟩
      | succ i =>
          have hi : i < c.s.tasks.length := hk
          have hget : c.s.tasks[i]? = some c.s.tasks[i] := List.getElem?_eq_getElem hi
          have hsound : ∀ ts es, closeCount es = 0 →
              ((c.record (.invoke i c.s.tasks[i] c.s.C)).extend ts es).Sound k0 := by
            intro ts es hes
            refine ⟨fun h => ?_, fun _ => Or.inr hl, ?_⟩
            · exact absurd (show c.s.once.done = true from h) (by rw [hd]; decide)
            · show closeCount (c.trace ++ [Event.invoke i c.s.tasks[i] c.s.C] ++ es) =
                k0 + (if c.s.C then 1 else 0)
              rw [closeCount_append, closeCount_append, hG3, hes]; rfl
          simp only [Pc.step, hget] at hstep
          cases hcs : (c.s.tasks[i]).callsStop c.s.C with
          | true =>
              rw [runTask_of_callsStop (Stop (n + 1)) (Stop_blocksWhenLocked n) _
                (c.record (.invoke i c.s.tasks[i] c.s.C)) hl hd hcs] at hstep
              simp only [Option.some.injEq, Prod.mk.injEq] at hstep
              obtain ⟨rfl, rfl⟩ := hstep
              exact ⟨⟨hl, hd, hC⟩, hsound _ _ (closeCount_events _ _),
                fun h => absurd h (by rw [hd]; decide),
                fun h => by simp [Pc.holdsLock] at h, fun h => by simp [Pc.holdsLock] at h⟩
          | false =>
              rw [runTask_of_not_callsStop (Stop (n + 1)) _
                (c.record (.invoke i c.s.tasks[i] c.s.C)) hcs] at hstep
              simp only [Option.some.injEq, Prod.mk.injEq] at hstep
              obtain ⟨rfl, rfl⟩ := hstep
              refine ⟨⟨hl, hd, hC, ?_⟩, hsound _ _ (closeCount_events _ _),
                fun h => absurd h (by rw [hd]; decide),
                fun h => by simp [Pc.holdsLock] at h, fun h => by simp [Pc.holdsLock] at h⟩
              show i ≤ (c.s.tasks ++ _).length
              rw [List.length_append]; omega
  | clearing =>
      obtain ⟨hl, hd, hC⟩ := hok
      simp only [Pc.step, Option.some.injEq, Prod.mk.injEq] at hstep
      obtain ⟨rfl, rfl⟩ := hstep
      exact ⟨⟨hl, hd, hC, rfl⟩,
        ⟨fun h => absurd (show c.s.once.done = true from h) (by rw [hd]; decide),
          fun _ => Or.inr hl, hG3⟩,
        id, fun h => by simp [Pc.holdsLock] at h, fun h => by simp [Pc.holdsLock] at h⟩
  | storing =>
      obtain ⟨hl, hd, hC, ht⟩ := hok
      simp only [Pc.step, Option.some.injEq, Prod.mk.injEq] at hstep
      obtain ⟨rfl, rfl⟩ := hstep
      exact ⟨⟨hl, rfl⟩, ⟨fun _ => ⟨hC, ht⟩, fun _ => Or.inl rfl, hG3⟩, fun _ => rfl,
        fun h => by simp [Pc.holdsLock] at h, fun h => by simp [Pc.holdsLock] at h⟩
  | unlocking =>
      obtain ⟨hl, hd⟩ := hok
      simp only [Pc.step, Option.some.injEq, Prod.mk.injEq] at hstep
      obtain ⟨rfl, rfl⟩ := hstep
      exact ⟨hd, ⟨hG1, fun _ => Or.inl hd, hG3⟩, id,
        fun h => by simp [Pc.holdsLock] at h, fun h => by simp [Pc.holdsLock] at h⟩
  | returned => simp [Pc.step] at hstep
  | stuck => simp [Pc.step] at hstep
  | crashed => simp [Pc.step] at hstep

theorem Pc.ok_of_not_holdsLock (q : Pc) (c c' : Config) (hq : q.holdsLock = false)
    (hok : q.ok c) (hdone : c.s.once.done = true → c'.s.once.done = true) : q.ok c' := by
  cases q with
  | start => trivial
  | lockWait => trivial
  | returned => exact hdone hok
  | crashed => exact hok
  | holding => simp [Pc.holdsLock] at hq
  | closing => simp [Pc.holdsLock] at hq
  | looping k => simp [Pc.holdsLock] at hq
  | clearing => simp [Pc.holdsLock] at hq
  | storing => simp [Pc.holdsLock] at hq
  | unlocking => simp [Pc.holdsLock] at hq
  | stuck => simp [Pc.holdsLock] at hq

theorem Pc.locked_of_holdsLock (q : Pc) (c : Config) (hq : q.holdsLock = true)
    (hok : q.ok c) : c.s.once.locked = true := by
  cases q with
  | start => simp [Pc.holdsLock] at hq
  | lockWait => simp [Pc.holdsLock] at hq
  | returned => simp [Pc.holdsLock] at hq
  | crashed => simp [Pc.holdsLock] at hq
  | holding => exact hok.1
  | closing => exact hok.1
  | looping k => exact hok.1
  | clearing => exact hok.1
  | storing => exact hok.1
  | unlocking => exact hok.1
  | stuck => exact hok.1

/-- Every step of every goroutine preserves the invariant. -/
theorem Conc.step_inv (n k0 i : Nat) (σ σ' : Conc) (hinv : σ.Inv k0)
    (hstep : σ.step (n + 1) i = some σ') : σ'.Inv k0 := by
  obtain ⟨hok, hmx, hG⟩ := hinv
  unfold Conc.step at hstep
  cases hth : σ.threads[i]? with
  | none => rw [hth] at hstep; cases hstep
  | some pc =>
    rw [hth] at hstep
    simp only [] at hstep
    cases hps : pc.step (n + 1) σ.cfg with
    | none => rw [hps] at hstep; cases hstep
    | some r =>
      obtain ⟨pc', c'⟩ := r
      rw [hps] at hstep
      simp only [Option.map_some', Option.some.injEq] at hstep
      subst hstep
      obtain ⟨hok', hG', hdone, hacq, hsame⟩ :=
        Pc.step_spec n k0 pc pc' σ.cfg c' (hok i pc hth) hG hps
      have hi : i < σ.threads.length := (List.getElem?_eq_some.mp hth).1
      have key : ∀ (j : Nat) (q : Pc), i ≠ j → σ.threads[j]? = some q →
          q.ok c' ∧ (pc'.holdsLock = true → q.holdsLock = false) := by
        intro j q hij hq
        cases hqh : q.holdsLock with
        | false => exact ⟨q.ok_of_not_holdsLock _ _ hqh (hok j q hq) hdone, fun _ => rfl⟩
        | true =>
            have hpc : pc.holdsLock = false := by
              cases hp : pc.holdsLock with
              | false => rfl
              | true => exact absurd (hmx i j pc q hth hq hp hqh) hij
            cases hp' : pc'.holdsLock with
            | false =>
                have hc : c' = σ.cfg := hsame hpc hp'
                exact ⟨by rw [hc]; exact hok j q hq, fun h => by cases h⟩
            | true =>
                have h1 := hacq hpc hp'
                have h2 := q.locked_of_holdsLock _ hqh (hok j q hq)
                rw [h1] at h2; cases h2
      refine ⟨?_, ?_, hG'⟩
      · intro j q hq
        by_cases hij : i = j
        · subst hij
          rw [List.getElem?_set_self hi] at hq
          cases hq; exact hok'
        · rw [List.getElem?_set_ne hij] at hq
          exact (key j q hij hq).1
      · intro j k a b ha hb hah hbh
        by_cases hij : i = j
        · by_cases hik : i = k
          · rw [← hij, ← hik]
          · subst hij
            rw [List.getElem?_set_self hi] at ha
            rw [List.getElem?_set_ne hik] at hb
            cases ha
            have := (key k b hik hb).2 hah
            rw [this] at hbh; cases hbh
        · by_cases hik : i = k
          · subst hik
            rw [List.getElem?_set_self hi] at hb
            rw [List.getElem?_set_ne hij] at ha
            cases hb
            have := (key j a hij ha).2 hbh
            rw [this] at hah; cases hah
          · rw [List.getElem?_set_ne hij] at ha
            rw [List.getElem?_set_ne hik] at hb
            exact hmx j k a b ha hb hah hbh

/-- The invariant holds along every schedule. -/
theorem Conc.run_inv (n k0 : Nat) (sched : List Nat) :
    ∀ σ : Conc, σ.Inv k0 → (Conc.run (n + 1) sched σ).Inv k0 := by
  induction sched with
  | nil => intro σ h; exact h
  | cons i sched ih =>
      intro σ h
      rw [Conc.run]
      cases hs : σ.step (n + 1) i with
      | none => exact ih σ h
      | some σ' => exact ih σ' (Conc.step_inv n k0 i σ σ' h hs)

/-- The invariant holds when the goroutines arrive at an open stopper at rest. -/
theorem Conc.init_inv (c : Config) (hq : c.Quiescent) (ho : c.s.C = false) (N : Nat) :
    (Conc.init c N).Inv (closeCount c.trace) := by
  have hd : c.s.once.done = false := by rw [hq.2, ho]
  refine ⟨?_, ?_, ?_, ?_, ?_⟩
  · intro i pc h
    have : pc = .start := List.eq_of_mem_replicate (List.getElem?_mem h)
    subst this; trivial
  · intro i j a b ha _ hah _
    have : a = .start := List.eq_of_mem_replicate (List.getElem?_mem ha)
    subst this; cases hah
  · intro h; exact absurd (show c.s.once.done = true from h) (by rw [hd]; decide)
  · intro h; exact absurd (show c.s.C = true from h) (by rw [ho]; decide)
  · show closeCount c.trace = closeCount c.trace + (if c.s.C then 1 else 0)
    rw [ho]; rfl

theorem Conc.run_append (fuel : Nat) (xs ys : List Nat) :
    ∀ σ : Conc, Conc.run fuel (xs ++ ys) σ = Conc.run fuel ys (Conc.run fuel xs σ) := by
  induction xs with
  | nil => intro σ; rfl
  | cons i xs ih => intro σ; simp only [List.cons_append, Conc.run]; exact ih _

/-- Scheduled alone, the goroutine in the cleanup loop does what `cleanupLoop` does. -/
theorem Conc.run_looping (n : Nat) (rest : List Pc) :
    ∀ (k : Nat) (c c' : Config), cleanupLoop (Stop (n + 1)) k c = .returned c' →
      Conc.run (n + 1) (List.replicate (k + 1) 0) ⟨c, .looping k :: rest⟩ =
        ⟨c', .clearing :: rest⟩ := by
  intro k
  induction k with
  | zero =>
      intro c c' h
      simp only [cleanupLoop, Outcome.returned.injEq] at h
      subst h
      simp [Conc.run, Conc.step, Pc.step]
  | succ k ih =>
      intro c c' h
      rw [cleanupLoop] at h
      cases hget : c.s.tasks[k]? with
      | none => rw [hget] at h; cases h
      | some t =>
          rw [hget] at h
          simp only [] at h
          cases hr : runTask (Stop (n + 1)) t (c.record (.invoke k t c.s.C)) with
          | returned c1 =>
              rw [hr, Outcome.andThen] at h
              rw [List.replicate_succ, Conc.run]
              have hs : Conc.step (n + 1) 0 ⟨c, .looping (k + 1) :: rest⟩ =
                  some ⟨c1, .looping k :: rest⟩ := by
                simp [Conc.step, Pc.step, hget, hr]
              rw [hs]
              exact ih c1 c' h
          | deadlock c1 => rw [hr, Outcome.andThen] at h; cases h
          | panicked c1 => rw [hr, Outcome.andThen] at h; cases h
          | outOfFuel => rw [hr, Outcome.andThen] at h; cases h

/-- Scheduled alone on an open stopper at rest whose tasks return, a goroutine
calling `Stop` goes through `Do`, the body and the deferred calls in
`len(s.tasks) + 8` steps and leaves exactly what `Stop` leaves; the other
goroutines have not moved. -/
theorem Conc.run_alone (n : Nat) (c : Config) (hq : c.Quiescent) (ho : c.s.C = false)
    (hret : ∀ t ∈ c.s.tasks, t.callsStop true = false) (rest : List Pc) :
    Conc.run (n + 1) (List.replicate (c.s.tasks.length + 8) 0) ⟨c, .start :: rest⟩ =
      ⟨afterStop c, .returned :: rest⟩ := by
  obtain ⟨hl, hd⟩ := hq
  rw [ho] at hd
  have hloop := cleanupLoop_of_not_callsStop (Stop (n + 1)) c.s.tasks.length (enterBody c)
    c.s.tasks rfl (by simp [enterBody]) hret
  have hsplit : List.replicate (c.s.tasks.length + 8) 0 =
      [0, 0, 0, 0] ++ (List.replicate (c.s.tasks.length + 1) 0 ++ [0, 0, 0]) := by
    rw [show c.s.tasks.length + 8 = 4 + ((c.s.tasks.length + 1) + 3) by omega,
      List.replicate_add, List.replicate_add]
    rfl
  have h4 : Conc.run (n + 1) [0, 0, 0, 0] ⟨c, .start :: rest⟩ =
      ⟨enterBody c, .looping c.s.tasks.length :: rest⟩ := by
    simp [Conc.run, Conc.step, Pc.step, hd, hl, ho, closeChan, Config.setOnce, Config.record,
      enterBody]
  rw [hsplit, Conc.run_append, h4, Conc.run_append,
    Conc.run_looping n rest c.s.tasks.length (enterBody c) _ hloop]
  simp [Conc.run, Conc.step, Pc.step, Config.setOnce, Config.extend, enterBody, afterStop]

/-- C9 (as stated, refuted): with the first goroutine inside the cleanup loop,
a second goroutine that calls `Stop` does not return: it waits at `o.m.Lock()`,
where it cannot move, while the body has not finished. -/
theorem concurrent_Stop_waits_for_body :
    racingStops.threads = [.looping 1, .lockWait] ∧ racingStops.step 1 1 = none ∧
      racingStops.cfg.s.once.done = false ∧ racingStops.cfg.s.tasks ≠ [] := by
  decide

/-- C9 (amended): under concurrent calls of `Stop` on an open stopper at rest,
along every schedule, `close(s.C)` is executed at most once and at most one
goroutine at a time is inside the guard, so one call at most executes the close
body; no call has returned before that body has finished (a returned call
implies `done` stored, the channel closed, the slice cleared and the body run
exactly once); a call waiting for the mutex cannot move while it is held; and
the call that runs the body, scheduled alone, does exactly what `Stop` does. -/
theorem concurrent_Stop_runs_body_once (c : Config) (hq : c.Quiescent) (ho : c.s.C = false)
    (N n : Nat) (sched : List Nat) :
    closeCount (Conc.run (n + 1) sched (Conc.init c N)).cfg.trace ≤ closeCount c.trace + 1 ∧
    (∀ (i j : Nat) (a b : Pc),
      (Conc.run (n + 1) sched (Conc.init c N)).threads[i]? = some a →
      (Conc.run (n + 1) sched (Conc.init c N)).threads[j]? = some b →
      a.holdsLock = true → b.holdsLock = true → i = j) ∧
    (∀ i : Nat, (Conc.run (n + 1) sched (Conc.init c N)).threads[i]? = some .returned →
      (Conc.run (n + 1) sched (Conc.init c N)).cfg.s.once.done = true ∧
      (Conc.run (n + 1) sched (Conc.init c N)).cfg.s.C = true ∧
      (Conc.run (n + 1) sched (Conc.init c N)).cfg.s.tasks = [] ∧
      closeCount (Conc.run (n + 1) sched (Conc.init c N)).cfg.trace = closeCount c.trace + 1) ∧
    (∀ i : Nat, (Conc.run (n + 1) sched (Conc.init c N)).threads[i]? = some .lockWait →
      (Conc.run (n + 1) sched (Conc.init c N)).cfg.s.once.locked = true →
      (Conc.run (n + 1) sched (Conc.init c N)).step (n + 1) i = none) ∧
    ((∀ t ∈ c.s.tasks, t.callsStop true = false) →
      Conc.run (n + 1) (List.replicate (c.s.tasks.length + 8) 0) (Conc.init c (N + 1)) =
        ⟨afterStop c, .returned :: List.replicate N .start⟩) := by
  obtain ⟨hok, hmx, hG1, _, hG3⟩ := Conc.run_inv n _ sched _ (Conc.init_inv c hq ho N)
  refine ⟨?_, hmx, ?_, ?_, ?_⟩
  · rw [hG3]; split <;> omega
  · intro i hi
    have hd : (Conc.run (n + 1) sched (Conc.init c N)).cfg.s.once.done = true := hok i _ hi
    obtain ⟨hC, ht⟩ := hG1 hd
    refine ⟨hd, hC, ht, ?_⟩
    rw [hG3, hC]; rfl
  · intro i hi hl
    simp [Conc.step, hi, Pc.step, hl]
  · intro hret
    exact Conc.run_alone n c hq ho hret _

/-- Witness for C9 (amended): two goroutines on the stopper holding the task
`a`, interleaved; both return, and the stopper is as after one `Stop`. -/
theorem concurrent_Stop_runs_body_once_witness :
    (New.Defer (.emit "a" .ret)).Quiescent ∧ (New.Defer (.emit "a" .ret)).s.C = false ∧
    closeCount (Conc.run 1 [0, 0, 0, 0, 1, 1, 0, 0, 0, 0, 0, 1, 1, 1]
      (Conc.init (New.Defer (.emit "a" .ret)) 2)).cfg.trace ≤ 0 + 1 ∧
    Conc.run 1 [0, 0, 0, 0, 1, 1, 0, 0, 0, 0, 0, 1, 1, 1]
      (Conc.init (New.Defer (.emit "a" .ret)) 2) =
        ⟨afterStop (New.Defer (.emit "a" .ret)), [.returned, .returned]⟩ :=
  ⟨by decide, rfl,
    (concurrent_Stop_runs_body_once (New.Defer (.emit "a" .ret)) (by decide) rfl 2 0
      [0, 0, 0, 0, 1, 1, 0, 0, 0, 0, 0, 1, 1, 1]).1,
    by decide⟩

/-- Witness for C5: the worker is inside a call of the probing task when
`Stop` is called; that call returns, no further call is started. -/
theorem Loop_never_calls_on_closed_witness :
    (⟨New.record .loopCall, probingTask, .inCall⟩ : LoopSys).cfg.Quiescent ∧
    ∃ σ1 σ', (⟨New.record .loopCall, probingTask, .inCall⟩ : LoopSys).step 2 .stop = some σ1 ∧
      σ1.cfg.s.C = true ∧
      LoopSys.run 2 [.worker, .worker, .stop, .worker] σ1 = some σ' ∧ σ'.cfg.s.C = true ∧
      loopCalls σ'.cfg.trace = 1 ∧ loopReturns σ'.cfg.trace ≤ 0 + 1 :=
  ⟨by decide,
    (Loop_never_calls_on_closed ⟨New.record .loopCall, probingTask, .inCall⟩ (by decide) 0
      [.worker, .worker, .stop, .worker]).1⟩

end gstop
